import Mathlib

/-!
# Verification of the Manalogue man-page search engine against its specification

This file gives a shallow embedding, in Lean 4, of the core of the Manalogue
search engine (a Rust program: `text.rs`, `doc.rs`, `index.rs`, `search.rs`,
`io_util.rs`), and proves or refutes the frozen claims C1 .. C10 about it.

Modelling conventions:
* Rust machine integers (`u32`, `u64`) are modelled as `Nat` together with
  explicit `% 2 ^ 32` / `% 2 ^ 64` wrap-around where the code can overflow.
* `f32` scores appear in two roles.  In the binary index file they are opaque
  32-bit payloads and are modelled as their bit pattern (a `Nat < 2 ^ 32`):
  saving and loading never interprets them.  In the scoring and search
  arithmetic they are modelled as exact rationals `ℚ`; the two transcendental
  kernels (`f32::ln` inside `bm25_term` and `query_idf`) are kept as explicit
  function parameters (`lnB`, `lnQ`), so every statement below is proved for
  every possible model of the logarithm.
* Rust `HashMap`s are modelled as association lists in insertion order;
  wherever a claim could depend on the (unspecified) iteration order, the
  order is an explicit parameter of the statement.
* Fallible code returns `Option` / `Except`; a Rust panic (out-of-bounds
  slice index) is modelled as a distinct error value.
-/

namespace Manalogue

/-! ## §1 Text pipeline (`src/text.rs`)

`is_stop_word` and the body of `tokenize` are translated directly from
`text.rs`.  The stemmer comes from the external `rust_stemmers` crate
(`Stemmer::create(Algorithm::English)`), whose source is not part of this
repository; it is modelled from the spec ("Apply English Porter stemming"),
i.e. as the Snowball "english" (Porter2) stemmer.
-/

/-- The stop-word list of `is_stop_word` in `src/text.rs`, verbatim. -/
def stopWords : List String :=
  ["a", "an", "the", "and", "or", "but", "if", "then", "else",
   "when", "while", "where", "why", "how", "of", "to", "in",
   "on", "at", "by", "for", "with", "about", "from", "into",
   "over", "after", "before", "does", "between", "through",
   "during", "without", "within", "is", "are", "was", "were",
   "be", "been", "being", "do", "will", "did", "doing", "have",
   "has", "had", "having", "can", "could", "should", "would",
   "may", "might", "must", "such", "shall", "as", "it", "its",
   String.mk ['i', 't', Char.ofNat 39, 's'], "this", "that", "these", "those",
   "he", "she", "they",
   "them", "yes", "their", "there", "here", "we", "you", "your",
   "i", "me", "my", "our", "us", "not", "no", "use", "than",
   "too", "very", "also", "just", "only", "even", "more", "most",
   "some", "any", "each", "other", "used", "call", "called",
   "return", "returns", "value", "set", "get", "new", "see"]

/-- `is_stop_word` from `src/text.rs`. -/
def isStopWord (w : String) : Bool := stopWords.contains w

/-! ### The Snowball English (Porter2) stemmer

Modelled from the spec: the spec's "Apply English Porter stemming to
survivors" refers to `rust_stemmers::Stemmer::create(Algorithm::English)`,
an external crate that is not part of this repository.  The definitions
below follow the published Snowball "english" stemmer algorithm that the
crate implements.  Words are lower-case `List Char`s; the marker consonant
form of `y` is the upper-case `Y`, exactly as in the Snowball description.
-/

/-- The apostrophe character, written via its code point. -/
def apoChar : Char := Char.ofNat 39

/-- Vowels of the Snowball English stemmer (`a e i o u y`); the marked
consonant `Y` is not a vowel. -/
def isVowel (c : Char) : Bool :=
  c = 'a' || c = 'e' || c = 'i' || c = 'o' || c = 'u' || c = 'y'

/-- `startsL pre w` : does `w` begin with `pre`? -/
def startsL : List Char → List Char → Bool
  | [], _ => true
  | _ :: _, [] => false
  | a :: as, b :: bs => a = b && startsL as bs

/-- `endsL w sfx` : does `w` end with `sfx`? -/
def endsL (w sfx : List Char) : Bool := sfx.isSuffixOf w

/-- Remove the last `n` characters. -/
def chop (w : List Char) (n : Nat) : List Char := w.take (w.length - n)

/-- Position after the first vowel/non-vowel pair at or after `i`
(`gopast v gopast non-v` in Snowball), or the word length. -/
def stdRegion (w : List Char) (i : Nat) : Nat :=
  match (w.drop i).findIdx? (fun c => isVowel c) with
  | none => w.length
  | some j =>
    match (w.drop (i + j + 1)).findIdx? (fun c => !isVowel c) with
    | none => w.length
    | some k => i + j + 1 + k + 1

/-- The `R1` mark, with the special `gener`/`commun`/`arsen` forms. -/
def markR1 (w : List Char) : Nat :=
  if startsL "gener".toList w then 5
  else if startsL "commun".toList w then 6
  else if startsL "arsen".toList w then 5
  else stdRegion w 0

/-- Is a suffix of length `k` (already known to match) inside the region
starting at `p`? -/
def inRegion (p : Nat) (w : List Char) (k : Nat) : Bool := p ≤ w.length - k

/-- `markYsAux prev cs` marks `y` as `Y` after a (transformed) vowel. -/
def markYsAux : Char → List Char → List Char
  | _, [] => []
  | prev, c :: cs =>
    if c = 'y' && isVowel prev then 'Y' :: markYsAux 'Y' cs
    else c :: markYsAux c cs

/-- Prelude `y`-marking: initial `y`, and `y` after a vowel, become `Y`. -/
def markYs : List Char → List Char
  | [] => []
  | c :: cs =>
    let c' := if c = 'y' then 'Y' else c
    c' :: markYsAux c' cs

/-- Postlude: turn `Y` back into `y`. -/
def unY (w : List Char) : List Char := w.map (fun c => if c = 'Y' then 'y' else c)

/-- Exceptional forms checked before anything else. -/
def exception1 (w : List Char) : Option (List Char) :=
  if w = "skis".toList then some "ski".toList
  else if w = "skies".toList then some "sky".toList
  else if w = "dying".toList then some "die".toList
  else if w = "lying".toList then some "lie".toList
  else if w = "tying".toList then some "tie".toList
  else if w = "idly".toList then some "idl".toList
  else if w = "gently".toList then some "gentl".toList
  else if w = "ugly".toList then some "ugli".toList
  else if w = "early".toList then some "earli".toList
  else if w = "only".toList then some "onli".toList
  else if w = "singly".toList then some "singl".toList
  else if w = "sky".toList || w = "news".toList || w = "howe".toList
       || w = "atlas".toList || w = "cosmos".toList || w = "bias".toList
       || w = "andes".toList then some w
  else none

/-- Invariant forms checked after step 1a. -/
def exception2 (w : List Char) : Bool :=
  w = "inning".toList || w = "outing".toList || w = "canning".toList
  || w = "herring".toList || w = "earring".toList || w = "proceed".toList
  || w = "exceed".toList || w = "succeed".toList

/-- Step 0: strip an apostrophe suffix (`'s'`, `'s`, `'`), longest first. -/
def step0 (w : List Char) : List Char :=
  if endsL w [apoChar, 's', apoChar] then chop w 3
  else if endsL w [apoChar, 's'] then chop w 2
  else if endsL w [apoChar] then chop w 1
  else w

/-- Step 1a: plural endings. -/
def step1a (w : List Char) : List Char :=
  if endsL w "sses".toList then chop w 2
  else if endsL w "ied".toList || endsL w "ies".toList then
    (if 4 < w.length then chop w 2 else chop w 1)
  else if endsL w "ss".toList || endsL w "us".toList then w
  else if endsL w "s".toList then
    (if (w.take (w.length - 2)).any (fun c => isVowel c) then chop w 1 else w)
  else w

/-- Does the word end in a doubled letter from `bb dd ff gg mm nn pp rr tt`? -/
def doubleEnd (w : List Char) : Bool :=
  endsL w "bb".toList || endsL w "dd".toList || endsL w "ff".toList
  || endsL w "gg".toList || endsL w "mm".toList || endsL w "nn".toList
  || endsL w "pp".toList || endsL w "rr".toList || endsL w "tt".toList

/-- Does the word end in a short syllable? -/
def shortSyl (w : List Char) : Bool :=
  let n := w.length
  (n = 2 && isVowel (w.getD 0 ' ') && !isVowel (w.getD 1 ' '))
  || (3 ≤ n && !isVowel (w.getD (n - 3) ' ') && isVowel (w.getD (n - 2) ' ')
      && (let c := w.getD (n - 1) ' '
          !isVowel c && c ≠ 'w' && c ≠ 'x' && c ≠ 'Y'))

/-- The shared deletion action of step 1b for `ed edly ing ingly` (suffix
length `k`). -/
def step1bDelete (p1 : Nat) (w : List Char) (k : Nat) : List Char :=
  if (w.take (w.length - k)).any (fun c => isVowel c) then
    let w' := chop w k
    if endsL w' "at".toList || endsL w' "bl".toList || endsL w' "iz".toList then
      w' ++ ['e']
    else if doubleEnd w' then chop w' 1
    else if w'.length ≤ p1 && shortSyl w' then w' ++ ['e']
    else w'
  else w

/-- Step 1b. -/
def step1b (p1 : Nat) (w : List Char) : List Char :=
  if endsL w "eedly".toList then (if inRegion p1 w 5 then chop w 3 else w)
  else if endsL w "ingly".toList then step1bDelete p1 w 5
  else if endsL w "edly".toList then step1bDelete p1 w 4
  else if endsL w "eed".toList then (if inRegion p1 w 3 then chop w 1 else w)
  else if endsL w "ing".toList then step1bDelete p1 w 3
  else if endsL w "ed".toList then step1bDelete p1 w 2
  else w

/-- Step 1c: final `y`/`Y` preceded by a non-vowel that is not the first
letter becomes `i`. -/
def step1c (w : List Char) : List Char :=
  let n := w.length
  match w.getLast? with
  | some c =>
    if (c = 'y' || c = 'Y') && 3 ≤ n && !isVowel (w.getD (n - 2) ' ') then
      chop w 1 ++ ['i']
    else w
  | none => w

/-- Replace a suffix of length `k` by `r`. -/
def replSfx (w : List Char) (k : Nat) (r : List Char) : List Char := chop w k ++ r

/-- Valid `li`-endings for step 2. -/
def validLiEnding (c : Char) : Bool :=
  c = 'c' || c = 'd' || c = 'e' || c = 'g' || c = 'h' || c = 'k'
  || c = 'm' || c = 'n' || c = 'r' || c = 't'

/-- Step 2 (longest suffix first; action only when the suffix lies in R1). -/
def step2 (p1 : Nat) (w : List Char) : List Char :=
  if endsL w "ization".toList then
    (if inRegion p1 w 7 then replSfx w 7 "ize".toList else w)
  else if endsL w "ational".toList then
    (if inRegion p1 w 7 then replSfx w 7 "ate".toList else w)
  else if endsL w "fulness".toList then
    (if inRegion p1 w 7 then replSfx w 7 "ful".toList else w)
  else if endsL w "ousness".toList then
    (if inRegion p1 w 7 then replSfx w 7 "ous".toList else w)
  else if endsL w "iveness".toList then
    (if inRegion p1 w 7 then replSfx w 7 "ive".toList else w)
  else if endsL w "tional".toList then
    (if inRegion p1 w 6 then replSfx w 6 "tion".toList else w)
  else if endsL w "biliti".toList then
    (if inRegion p1 w 6 then replSfx w 6 "ble".toList else w)
  else if endsL w "lessli".toList then
    (if inRegion p1 w 6 then replSfx w 6 "less".toList else w)
  else if endsL w "entli".toList then
    (if inRegion p1 w 5 then replSfx w 5 "ent".toList else w)
  else if endsL w "ation".toList then
    (if inRegion p1 w 5 then replSfx w 5 "ate".toList else w)
  else if endsL w "alism".toList then
    (if inRegion p1 w 5 then replSfx w 5 "al".toList else w)
  else if endsL w "aliti".toList then
    (if inRegion p1 w 5 then replSfx w 5 "al".toList else w)
  else if endsL w "ousli".toList then
    (if inRegion p1 w 5 then replSfx w 5 "ous".toList else w)
  else if endsL w "iviti".toList then
    (if inRegion p1 w 5 then replSfx w 5 "ive".toList else w)
  else if endsL w "fulli".toList then
    (if inRegion p1 w 5 then replSfx w 5 "ful".toList else w)
  else if endsL w "enci".toList then
    (if inRegion p1 w 4 then replSfx w 4 "ence".toList else w)
  else if endsL w "anci".toList then
    (if inRegion p1 w 4 then replSfx w 4 "ance".toList else w)
  else if endsL w "abli".toList then
    (if inRegion p1 w 4 then replSfx w 4 "able".toList else w)
  else if endsL w "izer".toList then
    (if inRegion p1 w 4 then replSfx w 4 "ize".toList else w)
  else if endsL w "ator".toList then
    (if inRegion p1 w 4 then replSfx w 4 "ate".toList else w)
  else if endsL w "alli".toList then
    (if inRegion p1 w 4 then replSfx w 4 "al".toList else w)
  else if endsL w "bli".toList then
    (if inRegion p1 w 3 then replSfx w 3 "ble".toList else w)
  else if endsL w "ogi".toList then
    (if inRegion p1 w 3 && w.getD (w.length - 4) ' ' = 'l' then
      replSfx w 3 "og".toList else w)
  else if endsL w "li".toList then
    (if inRegion p1 w 2 && validLiEnding (w.getD (w.length - 3) ' ') then
      chop w 2 else w)
  else w

/-- Step 3 (longest suffix first; action only when the suffix lies in R1;
`ative` additionally requires R2). -/
def step3 (p1 p2 : Nat) (w : List Char) : List Char :=
  if endsL w "ational".toList then
    (if inRegion p1 w 7 then replSfx w 7 "ate".toList else w)
  else if endsL w "tional".toList then
    (if inRegion p1 w 6 then replSfx w 6 "tion".toList else w)
  else if endsL w "alize".toList then
    (if inRegion p1 w 5 then replSfx w 5 "al".toList else w)
  else if endsL w "icate".toList then
    (if inRegion p1 w 5 then replSfx w 5 "ic".toList else w)
  else if endsL w "iciti".toList then
    (if inRegion p1 w 5 then replSfx w 5 "ic".toList else w)
  else if endsL w "ative".toList then
    (if inRegion p1 w 5 then (if inRegion p2 w 5 then chop w 5 else w) else w)
  else if endsL w "ical".toList then
    (if inRegion p1 w 4 then replSfx w 4 "ic".toList else w)
  else if endsL w "ness".toList then
    (if inRegion p1 w 4 then chop w 4 else w)
  else if endsL w "ful".toList then
    (if inRegion p1 w 3 then chop w 3 else w)
  else w

/-- Step 4 (longest suffix first; action only when the suffix lies in R2;
`ion` additionally requires a preceding `s` or `t`). -/
def step4 (p2 : Nat) (w : List Char) : List Char :=
  if endsL w "ement".toList then (if inRegion p2 w 5 then chop w 5 else w)
  else if endsL w "ance".toList then (if inRegion p2 w 4 then chop w 4 else w)
  else if endsL w "ence".toList then (if inRegion p2 w 4 then chop w 4 else w)
  else if endsL w "able".toList then (if inRegion p2 w 4 then chop w 4 else w)
  else if endsL w "ible".toList then (if inRegion p2 w 4 then chop w 4 else w)
  else if endsL w "ment".toList then (if inRegion p2 w 4 then chop w 4 else w)
  else if endsL w "ant".toList then (if inRegion p2 w 3 then chop w 3 else w)
  else if endsL w "ent".toList then (if inRegion p2 w 3 then chop w 3 else w)
  else if endsL w "ism".toList then (if inRegion p2 w 3 then chop w 3 else w)
  else if endsL w "ate".toList then (if inRegion p2 w 3 then chop w 3 else w)
  else if endsL w "iti".toList then (if inRegion p2 w 3 then chop w 3 else w)
  else if endsL w "ous".toList then (if inRegion p2 w 3 then chop w 3 else w)
  else if endsL w "ive".toList then (if inRegion p2 w 3 then chop w 3 else w)
  else if endsL w "ize".toList then (if inRegion p2 w 3 then chop w 3 else w)
  else if endsL w "ion".toList then
    (if inRegion p2 w 3
        && (w.getD (w.length - 4) ' ' = 's' || w.getD (w.length - 4) ' ' = 't')
     then chop w 3 else w)
  else if endsL w "al".toList then (if inRegion p2 w 2 then chop w 2 else w)
  else if endsL w "er".toList then (if inRegion p2 w 2 then chop w 2 else w)
  else if endsL w "ic".toList then (if inRegion p2 w 2 then chop w 2 else w)
  else w

/-- Step 5: final `e` and `l`. -/
def step5 (p1 p2 : Nat) (w : List Char) : List Char :=
  if endsL w "e".toList then
    (if inRegion p2 w 1 || (inRegion p1 w 1 && !shortSyl (chop w 1)) then
      chop w 1 else w)
  else if endsL w "l".toList then
    (if inRegion p2 w 1 && w.getD (w.length - 2) ' ' = 'l' then chop w 1 else w)
  else w

/-- Modelled from the spec: the Snowball English (Porter2) stemmer of the
external `rust_stemmers` crate (`Algorithm::English`), which is not part of
this repository.  Input is assumed lower-case, as produced by `tokenize`. -/
def porterStemL (w : List Char) : List Char :=
  match exception1 w with
  | some r => r
  | none =>
    if w.length < 3 then w
    else
      let w0 := if startsL [apoChar] w then w.drop 1 else w
      let w1 := markYs w0
      let p1 := markR1 w1
      let p2 := stdRegion w1 p1
      let a := step1a (step0 w1)
      if exception2 a then unY a
      else unY (step5 p1 p2 (step4 p2 (step3 p1 p2 (step2 p1 (step1c (step1b p1 a))))))

/-- The stemmer on `String`s (`stemmer.stem(w)` in the Rust code). -/
def porterStem (s : String) : String := String.mk (porterStemL s.toList)

/-! ### `tokenize` from `src/text.rs` -/

/-- The separator predicate of `tokenize`:
`|c: char| !c.is_alphanumeric() && c != '-' && c != '_'`.
(Alphanumeric is modelled as ASCII alphanumeric; the non-ASCII Unicode
classes do not matter for any claim below.) -/
def sepChar (c : Char) : Bool := !c.isAlphanum && c ≠ '-' && c ≠ '_'

/-- Rust `str::split` on a char predicate: the list of pieces between
separators (always at least one piece, empty pieces preserved). -/
def splitByPred (p : Char → Bool) : List Char → List (List Char)
  | [] => [[]]
  | c :: cs =>
    let r := splitByPred p cs
    if p c then [] :: r
    else
      match r with
      | [] => [[c]]
      | h :: t => (c :: h) :: t

/-- Rust `str::len`: the UTF-8 byte length of a piece. -/
def byteLen (w : List Char) : Nat := (w.map Char.utf8Size).sum

/-- `w.starts_with('-')`. -/
def dashLead : List Char → Bool
  | '-' :: _ => true
  | _ => false

/-- The filter of `tokenize`: drop stop words, and short pieces
(`len >= 2` required when the piece starts with `-`, `len > 2` otherwise). -/
def keepPiece (w : List Char) : Bool :=
  !isStopWord (String.mk w)
  && (if dashLead w then 2 ≤ byteLen w else 2 < byteLen w)

/-- The split / lowercase / filter part of `tokenize`, before stemming. -/
def tokenPieces (s : String) : List (List Char) :=
  ((splitByPred sepChar s.toList).map (fun w => w.map Char.toLower)).filter keepPiece

/-- `tokenize` from `src/text.rs`: split on separators, lowercase, drop stop
words and short pieces, stem the survivors. -/
def tokenize (s : String) : List String :=
  (tokenPieces s).map (fun w => String.mk (porterStemL w))

/-! ## §2 `doc_type_multiplier` (`src/doc.rs`) -/

/-- `VIP_COMMANDS` from `src/constants.rs`, verbatim. -/
def VIP_COMMANDS : List String :=
  ["ls", "cp", "mv", "rm", "mkdir", "rmdir", "cd", "pwd", "cat", "echo",
   "chmod", "chown", "tar", "grep", "find", "awk", "sed", "kill", "ps",
   "top", "df", "du", "mount", "umount", "ip", "ping", "ssh", "bash", "sh",
   "sudo", "su", "apt", "pacman", "systemctl", "journalctl", "man", "info",
   "less", "more", "nano", "vim", "git", "curl", "wget", "rsync", "ln",
   "stat", "touch", "tail", "head", "sort", "uniq", "wc", "read", "gzip",
   "bzip2", "unzip", "zip", "chgrp", "date", "cal", "whoami"]

/-- Rust `char::to_digit(10)`. -/
def toDigit10 (c : Char) : Option Nat :=
  if '0' ≤ c ∧ c ≤ '9' then some (c.toNat - 48) else none

/-- Rust `str::to_lowercase` (ASCII; no claim involves non-ASCII case). -/
def toLowerStr (s : String) : String := String.mk (s.toList.map Char.toLower)

/-- `fname.rsplit('.').next()`: the part after the last `.` (the whole
string when there is no `.`). -/
def lastDotPart (fname : String) : String := (fname.splitOn ".").getLastD ""

/-- `fname.split('.').next()`: the part before the first `.`. -/
def firstDotPart (fname : String) : String := (fname.splitOn ".").headD ""

/-- `doc_type_multiplier` from `src/doc.rs`, translated clause by clause.
The `f32` literals are modelled as the corresponding rationals. -/
def doc_type_multiplier (fname : String) : ℚ :=
  if fname.endsWith "const" || fname.endsWith "type" || fname.endsWith "head" then
    1 / 10
  else
    let sectionMult : ℚ :=
      match (lastDotPart fname).toList.head?.bind toDigit10 with
      | some 1 => 4
      | some 8 => 5 / 2
      | some 5 => 6 / 5
      | some 2 => 4 / 5
      | some 3 => 4 / 5
      | some 4 => 3 / 5
      | some 6 => 3 / 5
      | some 7 => 3 / 5
      | _ => 4 / 5
    let base := toLowerStr (firstDotPart fname)
    let vipMult : ℚ := if VIP_COMMANDS.contains base then 5 else 1
    sectionMult * vipMult

/-- The multiplier exactly as claim C8 words it: the `const`/`type`/`head`
rule short-circuits at 0.1; otherwise the section multiplier derived from
the first character of the last `.`-separated suffix, times 5.0 when the
lowercased pre-dot base is in the VIP list and 1.0 otherwise. -/
def specDocTypeMultiplier (fname : String) : ℚ :=
  if fname.endsWith "const" || fname.endsWith "type" || fname.endsWith "head" then
    1 / 10
  else
    (match (lastDotPart fname).toList.head?.bind toDigit10 with
     | some 1 => (4 : ℚ)
     | some 8 => 5 / 2
     | some 5 => 6 / 5
     | some 2 => 4 / 5
     | some 3 => 4 / 5
     | some 4 => 3 / 5
     | some 6 => 3 / 5
     | some 7 => 3 / 5
     | _ => 4 / 5) *
    (if VIP_COMMANDS.contains (toLowerStr (firstDotPart fname)) then 5 else 1)

/-! ## §3 Bounded edit distance (`edit_distance` in `src/text.rs`)

The function is embedded as it is written (two rolling rows over the
character vectors, early return when the row minimum exceeds `max_dist`),
and verified against the textbook Levenshtein distance `lev`.
-/

/-- The textbook Levenshtein distance with unit costs (Mathlib's
`levenshtein` with the default cost structure): the "true Levenshtein
distance" of claim C9. -/
def lev (xs ys : List Char) : Nat := levenshtein Levenshtein.defaultCost xs ys

/-! The rolling-row implementation, translated from `edit_distance`. -/

/-- One row update: `curr[j] = if a[i-1] == b[j-1] { prev[j-1] }
else { 1 + prev[j-1].min(prev[j]).min(curr[j-1]) }`, walking the remaining
columns with the running diagonal, upper and left cells. -/
def levRowAux (ai : Char) : List Char → List Nat → Nat → Nat → List Nat
  | [], _, _, _ => []
  | _ :: _, [], _, _ => []
  | bj :: bs, up :: ups, diag, left =>
    let c := if ai = bj then diag else 1 + min (min diag up) left
    c :: levRowAux ai bs ups up c

/-- The full row `i` (its head is `curr[0] = i`). -/
def levRow (ai : Char) (b : List Char) (i : Nat) (prev : List Nat) : List Nat :=
  i :: levRowAux ai b prev.tail (prev.headD 0) i

/-- `row_min`: the minimum of a row (the code starts from `curr[0] = i` and
folds in every later cell). -/
def rowMinVal : List Nat → Nat
  | [] => 0
  | h :: t => t.foldl Nat.min h

/-- The outer loop of `edit_distance`: one row per character of `a`,
returning `max_dist + 1` as soon as a row minimum exceeds `max_dist`, and
`prev[n]` at the end. -/
def edLoop (k : Nat) (b : List Char) : List Char → Nat → List Nat → Nat
  | [], _, prev => prev.getLastD 0
  | ai :: arest, i, prev =>
    let curr := levRow ai b i prev
    if k < rowMinVal curr then k + 1
    else edLoop k b arest (i + 1) curr

/-- `edit_distance` from `src/text.rs`: bail out when the length difference
exceeds `max_dist`, otherwise run the rolling rows starting from
`prev = [0, 1, .., n]`. -/
def edit_distance (a b : String) (maxDist : Nat) : Nat :=
  let A := a.toList
  let B := b.toList
  let m := A.length
  let n := B.length
  if maxDist < max m n - min m n then maxDist + 1
  else edLoop maxDist B A 1 (List.range (n + 1))

/-- The intended content of row `i` beyond column 0: distances from `A` to
ever longer prefixes of the remaining columns. -/
def rowsFrom (A : List Char) : List Char → List Char → List Nat
  | _, [] => []
  | pb, c :: cs => lev A (pb ++ [c]) :: rowsFrom A (pb ++ [c]) cs

/-- The intended content of a full row: `rowSpec A b ! j = lev A (b.take j)`. -/
def rowSpec (A b : List Char) : List Nat := A.length :: rowsFrom A [] b

/-! ## §4 Association-list helpers

Rust `HashMap`s are modelled as association lists kept in insertion order.
`pushA` is `map.entry(k).or_default().push(v)`, `addA` is
`*map.entry(k).or_insert(0.0) += v`, `padA` is `map.entry(k).or_insert(0.0)`.
-/

/-- `HashMap::get`. -/
def alookup {α β : Type} [DecidableEq α] : List (α × β) → α → Option β
  | [], _ => none
  | (k', v) :: t, k => if k' = k then some v else alookup t k

/-- `map.entry(k).or_default().push(v)` (append at the end of `k`'s list). -/
def pushA {α β : Type} [DecidableEq α] : List (α × List β) → α → β → List (α × List β)
  | [], k, v => [(k, [v])]
  | (k', vs) :: t, k, v =>
    if k' = k then (k', vs ++ [v]) :: t else (k', vs) :: pushA t k v

/-- `*map.entry(k).or_insert(0.0) += v`. -/
def addA {α : Type} [DecidableEq α] : List (α × ℚ) → α → ℚ → List (α × ℚ)
  | [], k, v => [(k, v)]
  | (k', x) :: t, k, v =>
    if k' = k then (k', x + v) :: t else (k', x) :: addA t k v

/-- `map.entry(k).or_insert(0.0)` (no addition). -/
def padA {α : Type} [DecidableEq α] : List (α × ℚ) → α → List (α × ℚ)
  | [], k => [(k, 0)]
  | (k', x) :: t, k =>
    if k' = k then (k', x) :: t else (k', x) :: padA t k

/-! ## §5 Index builder (`build_index` in `src/index.rs`), over exact
rational arithmetic

`f32` arithmetic is idealised as `ℚ`; the `f32::ln` call inside `bm25_term`
is an explicit parameter `lnB`, so everything proved below holds for every
model of the logarithm.  A `DocRec` is one record of the temp file (the
fields `read_str`/`read_u32`/`read_tf_map` recover in `build_index`); the
number of documents (`stats.total_docs`, which is both the loop count and
the BM25 `n`) is the length of the record list.
-/

/-- Constants from `src/constants.rs` (`f32` literals as rationals). -/
def BM25_K1 : ℚ := 3 / 2

def BM25_B : ℚ := 3 / 4

def WEIGHT_CMD_NAME : ℚ := 30

def WEIGHT_NAME_DESC : ℚ := 12

def WEIGHT_SYNOPSIS : ℚ := 5 / 2

def WEIGHT_BODY : ℚ := 1

def SEMANTIC_RERANK_N : Nat := 50

def SEMANTIC_WEIGHT : ℚ := 15

/-- `PREFIX_MIN_LEN` from `src/constants.rs`. -/
def PFX_MIN_LEN : Nat := 4

/-- `PREFIX_MIN_IDF` from `src/constants.rs`. -/
def PFX_MIN_IDF : ℚ := 1

def FUZZY_MIN_LEN : Nat := 4

/-- One serialized document record of the temp file. -/
structure DocRec where
  fname : String
  cmdName : String
  descLen : Nat
  synLen : Nat
  bodyLen : Nat
  descTf : List (String × Nat)
  synTf : List (String × Nat)
  bodyTf : List (String × Nat)
  nameDescRaw : String

/-- The aggregate statistics of `CrawlStats` used by the builder (without
`total_docs`, which is the length of the record list). -/
structure CrawlStatsM where
  globalDf : List (String × Nat)
  avgDescLen : ℚ
  avgSynopsisLen : ℚ
  avgBodyLen : ℚ

/-- `bm25_term` from `src/index.rs`, with the `ln` kernel as parameter. -/
def bm25_term (lnB : ℚ → ℚ) (tf dl avgdl n df : ℚ) : ℚ :=
  if tf = 0 ∨ df = 0 ∨ n = 0 then 0
  else
    let idf := max (lnB ((n - df + 1 / 2) / (df + 1 / 2) + 1)) 0
    let ntf := (tf * (BM25_K1 + 1)) / (tf + BM25_K1 * (1 - BM25_B + BM25_B * dl / avgdl))
    idf * ntf

/-- Term frequency with default 0 (`*tf.get(term).unwrap_or(&0)`). -/
def tfOf (m : List (String × Nat)) (t : String) : ℚ :=
  match alookup m t with
  | some f => (f : ℚ)
  | none => 0

/-- The per-(document, term) combined score computed inside the builder
loop: `(cmd_score + desc_score + syn_score + body_score) * type_mult`. -/
def docTermScore (lnB : ℚ → ℚ) (n : ℚ) (stats : CrawlStatsM) (r : DocRec)
    (term : String) : ℚ :=
  let df : ℚ :=
    match alookup stats.globalDf term with
    | some d => (d : ℚ)
    | none => 1
  let cmd_score : ℚ :=
    if term = r.cmdName ∧ r.cmdName ≠ "" then
      bm25_term lnB 1 1 1 n df * WEIGHT_CMD_NAME
    else 0
  let desc_score : ℚ :=
    if 0 < r.descLen then
      bm25_term lnB (tfOf r.descTf term) (r.descLen : ℚ)
        (max stats.avgDescLen 1) n df * WEIGHT_NAME_DESC
    else 0
  let syn_score : ℚ :=
    if 0 < r.synLen then
      bm25_term lnB (tfOf r.synTf term) (r.synLen : ℚ)
        (max stats.avgSynopsisLen 1) n df * WEIGHT_SYNOPSIS
    else 0
  let body_score : ℚ :=
    if 0 < r.bodyLen then
      bm25_term lnB (tfOf r.bodyTf term) (r.bodyLen : ℚ)
        (max stats.avgBodyLen 1) n df * WEIGHT_BODY
    else 0
  (cmd_score + desc_score + syn_score + body_score) * doc_type_multiplier r.fname

/-- `all_terms`: the `HashSet` union of the three tf-key sets and the
command name (which the code inserts even when empty). -/
def allTerms (r : DocRec) : List String :=
  (r.descTf.map Prod.fst ++ r.synTf.map Prod.fst ++ r.bodyTf.map Prod.fst
    ++ [r.cmdName]).dedup

/-- The builder output (`struct Index`). -/
structure IndexA where
  docMap : List String
  cmdNames : List String
  nameDescs : List String
  inverted : List (String × List (Nat × ℚ))
  cmdNameIndex : List (String × List Nat)
  descIndex : List (String × List Nat)

def emptyIndexA : IndexA := ⟨[], [], [], [], [], []⟩

/-- The body of the builder loop for one document with id `docId`. -/
def buildStep (lnB : ℚ → ℚ) (n : ℚ) (stats : CrawlStatsM) (acc : IndexA)
    (docId : Nat) (r : DocRec) : IndexA :=
  let cni :=
    if r.cmdName ≠ "" then pushA acc.cmdNameIndex r.cmdName docId
    else acc.cmdNameIndex
  let di := (r.descTf.map Prod.fst).foldl (fun m t => pushA m t docId) acc.descIndex
  let inv := (allTerms r).foldl
    (fun m t =>
      let s := docTermScore lnB n stats r t
      if 0 < s then pushA m t (docId, s) else m)
    acc.inverted
  { docMap := acc.docMap ++ [r.fname]
    cmdNames := acc.cmdNames ++ [r.cmdName]
    nameDescs := acc.nameDescs ++ [r.nameDescRaw]
    inverted := inv
    cmdNameIndex := cni
    descIndex := di }

/-- The builder loop over all records. -/
def buildDocs (lnB : ℚ → ℚ) (n : ℚ) (stats : CrawlStatsM) :
    Nat → List DocRec → IndexA → IndexA
  | _, [], acc => acc
  | i, r :: rs, acc => buildDocs lnB n stats (i + 1) rs (buildStep lnB n stats acc i r)

/-- Descending stable sort by score (`sort_by(|a, b| b.1.partial_cmp(&a.1))`;
scores are exact rationals, so the comparator is total). -/
def sortByScoreDesc {α : Type} (ps : List (α × ℚ)) : List (α × ℚ) :=
  ps.mergeSort (fun a b => decide (b.2 ≤ a.2))

/-- `build_index` from `src/index.rs`: stream the records, score each
(term, doc) pair, then sort every posting list by score descending. -/
def build_index (lnB : ℚ → ℚ) (stats : CrawlStatsM) (docs : List DocRec) : IndexA :=
  let n : ℚ := (docs.length : ℚ)
  let raw := buildDocs lnB n stats 0 docs emptyIndexA
  { raw with inverted := raw.inverted.map (fun e => (e.1, sortByScoreDesc e.2)) }

/-- The posting list of a term (empty when the term is absent). -/
def invList (idx : IndexA) (t : String) : List (Nat × ℚ) :=
  (alookup idx.inverted t).getD []

/-! ## §6 Query engine (`src/search.rs`), over exact rational arithmetic

The searchable state of a loaded `MmapIndex` is modelled as `SIdx`: the
word dictionary directly carries the posting list that `get_postings`
would fetch from the mmap (§8 proves the byte-level fetch returns exactly
the saved list, and the stored posting count equals its length).  The
`f32::ln` inside `query_idf` is the parameter `lnQ`.  The iteration order
of `token_idfs.values()` is the explicit parameter `dtoks` (the distinct
query tokens in the `HashMap`'s unspecified order).
-/

/-- The queryable part of a loaded index. -/
structure SIdx where
  docMap : List String
  nameDescs : List String
  dict : List (String × List (Nat × ℚ))
  descIndex : List (String × List Nat)

/-- `query_idf` from `src/search.rs`: `df` is the stored posting count
(default 1), the result is `ln(...).max(0.01)`. -/
def query_idf (lnQ : ℚ → ℚ) (idx : SIdx) (token : String) (n : ℚ) : ℚ :=
  let df : ℚ :=
    match alookup idx.dict token with
    | some ps => (ps.length : ℚ)
    | none => 1
  max (lnQ ((n - df + 1 / 2) / (df + 1 / 2) + 1)) (1 / 100)

/-- `a.abs_diff(b)` on `usize`. -/
def absDiffN (a b : Nat) : Nat := max a b - min a b

/-- `semantic_desc_score` from `src/search.rs`.  `queryTokens` is the
query-token `HashSet` (a deduplicated list), `tokenIdfs` the idf map. -/
def semantic_desc_score (queryTokens : List String)
    (tokenIdfs : List (String × ℚ)) (nameDesc : String) : ℚ :=
  if nameDesc = "" ∨ queryTokens = [] then 0
  else
    let descTokens := (tokenize nameDesc).dedup
    if descTokens = [] then 0
    else
      let idfs := (tokenIdfs.map Prod.snd).mergeSort (fun a b => decide (a ≤ b))
      let medianIdf := idfs.getD (idfs.length / 2) 0
      if 1 < idfs.length ∧
          tokenIdfs.any (fun p => decide (medianIdf ≤ p.2) && !descTokens.contains p.1) then 0
      else
        let totalQueryIdf :=
          (queryTokens.map (fun qt => (alookup tokenIdfs qt).getD (1 / 100))).sum
        let idfOverlap :=
          (queryTokens.map (fun qt =>
            if descTokens.contains qt then (alookup tokenIdfs qt).getD (1 / 100)
            else 0)).sum
        if totalQueryIdf = 0 then 0
        else
          let coverage := idfOverlap / totalQueryIdf
          let matched : ℚ :=
            ((queryTokens.filter (fun qt => descTokens.contains qt)).length : ℚ)
          let precision := matched / (descTokens.length : ℚ)
          if coverage + precision = 0 then 0
          else
            let f1 := 2 * coverage * precision / (coverage + precision)
            f1 * f1

/-- The body of the retrieval loop for one `(token, tok_idf)` pair drawn
from `query_tokens_vec.iter().zip(token_idfs.values())`: exact postings,
prefix expansion, fuzzy fallback, description pad, then accumulation into
`doc_score` / `doc_matched_idf`. -/
def tokenStep (idx : SIdx) (st : List (Nat × ℚ) × List (Nat × ℚ))
    (tok : String × ℚ) : List (Nat × ℚ) × List (Nat × ℚ) :=
  let token := tok.1
  let tokIdf := tok.2
  let tp0 : List (Nat × ℚ) :=
    match alookup idx.dict token with
    | some ps => ps.foldl (fun m p => addA m p.1 p.2) []
    | none => []
  let tp1 :=
    if PFX_MIN_LEN ≤ token.utf8ByteSize ∧ PFX_MIN_IDF < tokIdf then
      idx.dict.foldl
        (fun m e =>
          if e.1 ≠ token ∧ startsL token.toList e.1.toList then
            let penalty : ℚ := (3 / 5 : ℚ) ^ (e.1.utf8ByteSize - token.utf8ByteSize + 1)
            e.2.foldl (fun m2 p => addA m2 p.1 (p.2 * penalty)) m
          else m)
        tp0
    else tp0
  let tp2 :=
    if tp1 = [] ∧ FUZZY_MIN_LEN ≤ token.utf8ByteSize then
      idx.dict.foldl
        (fun m e =>
          if absDiffN e.1.utf8ByteSize token.utf8ByteSize ≤ 1
              ∧ edit_distance e.1 token 1 ≤ 1 then
            e.2.foldl (fun m2 p => addA m2 p.1 (p.2 * (1 / 2))) m
          else m)
        tp1
    else tp1
  let tp3 :=
    match alookup idx.descIndex token with
    | some ds => ds.foldl (fun m d => padA m d) tp2
    | none => tp2
  let matched : Bool := !tp3.isEmpty
  let docScore := tp3.foldl (fun m p => addA m p.1 p.2) st.1
  let docMatched :=
    if matched then tp3.foldl (fun m p => addA m p.1 tokIdf) st.2 else st.2
  (docScore, docMatched)

/-- The `token_idfs` map: one entry per distinct token.  `dtoks` is the
distinct-token list in the `HashMap`'s (unspecified) iteration order. -/
def tokenIdfList (lnQ : ℚ → ℚ) (idx : SIdx) (dtoks : List String) (n : ℚ) :
    List (String × ℚ) :=
  dtoks.map (fun t => (t, query_idf lnQ idx t n))

/-- The retrieval loop of `search`:
`for (token, &tok_idf) in query_tokens_vec.iter().zip(token_idfs.values())`.
Note the `zip`: it truncates at the shorter of the two sequences. -/
def accumulate (lnQ : ℚ → ℚ) (idx : SIdx) (qtoks dtoks : List String) :
    List (Nat × ℚ) × List (Nat × ℚ) :=
  let n : ℚ := (idx.docMap.length : ℚ)
  (qtoks.zip ((tokenIdfList lnQ idx dtoks n).map Prod.snd)).foldl
    (tokenStep idx) ([], [])

/-- Modelled from the spec (§4.7, steps 3–4): "For each query token `t`
(duplicates preserved), build a per-token `token_posts` ..." — every token
of the tokenized query is processed, paired with its own `idf(t)`.  This is
the reference against which the `zip`-based loop above is compared. -/
def specAccumulate (lnQ : ℚ → ℚ) (idx : SIdx) (qtoks : List String) :
    List (Nat × ℚ) × List (Nat × ℚ) :=
  let n : ℚ := (idx.docMap.length : ℚ)
  qtoks.foldl (fun st t => tokenStep idx st (t, query_idf lnQ idx t n)) ([], [])

/-- The AND-coverage stage: drop zero-matched-idf docs, reweight by
`coverage ^ max(2, k - 1)`. -/
def candidatesStage (lnQ : ℚ → ℚ) (idx : SIdx) (qtoks dtoks : List String) :
    List (Nat × ℚ) :=
  let n : ℚ := (idx.docMap.length : ℚ)
  let totalIdf := ((tokenIdfList lnQ idx dtoks n).map Prod.snd).sum
  let st := accumulate lnQ idx qtoks dtoks
  let andExp : Nat := max 2 (qtoks.length - 1)
  st.1.filterMap (fun p =>
    let midf := (alookup st.2 p.1).getD 0
    if midf = 0 then none
    else some (p.1, p.2 * (min (midf / totalIdf) 1) ^ andExp))

/-- Sort descending, keep the top `SEMANTIC_RERANK_N`, apply the semantic
rerank, re-sort. -/
def rerankedStage (lnQ : ℚ → ℚ) (idx : SIdx) (qtoks dtoks : List String) :
    List (Nat × ℚ) :=
  let n : ℚ := (idx.docMap.length : ℚ)
  let cands := sortByScoreDesc (candidatesStage lnQ idx qtoks dtoks)
  let qset := qtoks.dedup
  let tIdfs := tokenIdfList lnQ idx dtoks n
  sortByScoreDesc
    ((cands.take SEMANTIC_RERANK_N).map (fun p =>
      let sem := semantic_desc_score qset tIdfs (idx.nameDescs.getD p.1 "")
      (p.1, p.2 * (1 + SEMANTIC_WEIGHT * sem))))

/-- The dedup key: `fname.split('.').next().unwrap_or("").to_lowercase()`. -/
def baseOf (fname : String) : String := toLowerStr (firstDotPart fname)

/-- One step of the `best_for_base` fold.  (The code inserts
`(doc_id, f32::NEG_INFINITY)` and then replaces on strict improvement; over
exact rationals this collapses to insert-on-first-sight, replace when
strictly greater.) -/
def dedupIns : List (String × Nat × ℚ) → String → Nat → ℚ → List (String × Nat × ℚ)
  | [], b, d, s => [(b, d, s)]
  | (b', e) :: rest, b, d, s =>
    if b' = b then (if e.2 < s then (b', (d, s)) :: rest else (b', e) :: rest)
    else (b', e) :: dedupIns rest b d s

/-- The filename-base dedup: keep, per base, the entry with the highest
reweighted score, then sort descending. -/
def dedupStage (docMap : List String) (reranked : List (Nat × ℚ)) : List (Nat × ℚ) :=
  let best := reranked.foldl
    (fun m p => dedupIns m (baseOf (docMap.getD p.1 "")) p.1 p.2) []
  sortByScoreDesc (best.map Prod.snd)

/-- A returned search result. -/
structure SearchResult where
  docId : Nat
  fname : String
  nameDesc : String
  score : ℚ

/-- `search` on an already-tokenized query. -/
def searchToks (lnQ : ℚ → ℚ) (idx : SIdx) (qtoks dtoks : List String) :
    List SearchResult :=
  if qtoks = [] then []
  else
    (dedupStage idx.docMap (rerankedStage lnQ idx qtoks dtoks)).map (fun p =>
      { docId := p.1
        fname := idx.docMap.getD p.1 ""
        nameDesc := idx.nameDescs.getD p.1 ""
        score := p.2 })

/-- `search` from `src/search.rs`. -/
def search (lnQ : ℚ → ℚ) (idx : SIdx) (query : String) (dtoks : List String) :
    List SearchResult :=
  searchToks lnQ idx (tokenize query) dtoks

/-! ## §7 The binary index file (`save_index`, `load_index`,
`MmapIndex::get_postings` in `src/index.rs`, codec from `src/io_util.rs`)

The file is a byte list; a Rust `String` is its UTF-8 byte list (writing is
`write_all(s.as_bytes())`, reading is `from_utf8_lossy`, which is the
identity on the valid UTF-8 that was written).  An `f32` score is its
32-bit pattern: saving and loading never interprets it.  A panic
(out-of-range slice index) is the distinct outcome `panicOob` / `.panic`.
-/

/-- A byte string (each entry < 256 for real files). -/
abbrev Bytes := List Nat

/-- `write_u32` (4 bytes little-endian). -/
def writeU32 (v : Nat) : Bytes :=
  [v % 256, v / 256 % 256, v / 65536 % 256, v / 16777216 % 256]

/-- `u64::to_le_bytes` (8 bytes little-endian). -/
def writeU64 (v : Nat) : Bytes :=
  [v % 256, v / 256 % 256, v / 65536 % 256, v / 16777216 % 256,
   v / 4294967296 % 256, v / 1099511627776 % 256,
   v / 281474976710656 % 256, v / 72057594037927936 % 256]

/-- `write_str`: `u32` byte length followed by the raw bytes. -/
def writeStrB (s : Bytes) : Bytes := writeU32 s.length ++ s

/-- `read_u32`: fails (`UnexpectedEof`) when fewer than 4 bytes remain. -/
def readU32B : Bytes → Option (Nat × Bytes)
  | a :: b :: c :: d :: rest =>
    some (a + 256 * b + 65536 * c + 16777216 * d, rest)
  | _ => none

/-- `u64::from_le_bytes` after an 8-byte `read_exact`. -/
def readU64B : Bytes → Option (Nat × Bytes)
  | a :: b :: c :: d :: e :: f :: g :: h :: rest =>
    some (a + 256 * b + 65536 * c + 16777216 * d + 4294967296 * e
      + 1099511627776 * f + 281474976710656 * g + 72057594037927936 * h, rest)
  | _ => none

/-- `read_str`: length, then that many raw bytes (EOF when fewer remain). -/
def readStrB (bs : Bytes) : Option (Bytes × Bytes) :=
  match readU32B bs with
  | none => none
  | some (len, rest) =>
    if len ≤ rest.length then some (rest.take len, rest.drop len) else none

/-- The builder output as it is written to disk: three parallel document
arrays and the inverted index (scores are opaque 32-bit patterns). -/
structure Index32 where
  doc_map : List Bytes
  cmd_names : List Bytes
  name_descs : List Bytes
  inverted : List (Bytes × List (Nat × Nat))

/-- Step 1 of `save_index`: the per-document metadata records
(`fname`, `cmd_name`, `name_desc`), in id order. -/
def encodeDocs : List Bytes → List Bytes → List Bytes → Bytes
  | f :: fs, c :: cs, d :: ds =>
    writeStrB f ++ writeStrB c ++ writeStrB d ++ encodeDocs fs cs ds
  | _, _, _ => []

/-- Step 2: one dense posting blob (`u32 doc_id`, `f32 score` each). -/
def encodePostings : List (Nat × Nat) → Bytes
  | [] => []
  | (d, s) :: t => writeU32 d ++ writeU32 s ++ encodePostings t

/-- Step 2 of `save_index`: write every posting blob, capturing
`(word, stream_position, posting_count)` for the dictionary. -/
def saveBody (start : Nat) :
    List (Bytes × List (Nat × Nat)) → Bytes × List (Bytes × Nat × Nat)
  | [] => ([], [])
  | (w, ps) :: rest =>
    let blob := encodePostings ps
    let r := saveBody (start + blob.length) rest
    (blob ++ r.1, (w, start, ps.length) :: r.2)

/-- Step 3: the dictionary entries (`str word`, `u64 offset`, `u32 count`). -/
def encodeDictEntries : List (Bytes × Nat × Nat) → Bytes
  | [] => []
  | (w, off, cnt) :: t => writeStrB w ++ writeU64 off ++ writeU32 cnt ++ encodeDictEntries t

/-- `save_index` from `src/index.rs`: doc count and metadata, posting
blobs, dictionary, and the 8-byte footer holding the dictionary offset. -/
def save_index (I : Index32) : Bytes :=
  let meta := writeU32 I.doc_map.length ++ encodeDocs I.doc_map I.cmd_names I.name_descs
  let body := saveBody meta.length I.inverted
  let dictOff := meta.length + body.1.length
  meta ++ body.1 ++ (writeU32 body.2.length ++ encodeDictEntries body.2) ++ writeU64 dictOff

/-- The distinct failure kinds of `load_index`: the explicit
`InvalidData("File too small")`, an `UnexpectedEof` from `read_exact`, and
a Rust panic from an out-of-range slice index. -/
inductive LoadErr
  | tooSmall
  | truncated
  | panicOob
deriving DecidableEq

/-- The loaded index (`struct MmapIndex`): the file itself stays memory-
mapped and posting lists are fetched from it on demand. -/
structure MmapIdx where
  doc_map : List Bytes
  cmd_names : List Bytes
  name_descs : List Bytes
  inverted_dict : List (Bytes × Nat × Nat)
  cmd_name_index : List (Bytes × List Nat)
  desc_index : List (Bytes × List Nat)
  mmap : Bytes

/-- The document-metadata reader of `load_index` (doc_count records of
three strings each). -/
def readDocsB : Nat → Bytes → Option ((List Bytes × List Bytes × List Bytes) × Bytes)
  | 0, bs => some (([], [], []), bs)
  | n + 1, bs =>
    match readStrB bs with
    | none => none
    | some (f, bs1) =>
      match readStrB bs1 with
      | none => none
      | some (c, bs2) =>
        match readStrB bs2 with
        | none => none
        | some (d, bs3) =>
          match readDocsB n bs3 with
          | none => none
          | some (rest, tail) => some ((f :: rest.1, c :: rest.2.1, d :: rest.2.2), tail)

/-- The dictionary reader of `load_index`. -/
def readDictB : Nat → Bytes → Option (List (Bytes × Nat × Nat) × Bytes)
  | 0, bs => some ([], bs)
  | n + 1, bs =>
    match readStrB bs with
    | none => none
    | some (w, bs1) =>
      match readU64B bs1 with
      | none => none
      | some (off, bs2) =>
        match readU32B bs2 with
        | none => none
        | some (cnt, bs3) =>
          match readDictB n bs3 with
          | none => none
          | some (es, tail) => some ((w, off, cnt) :: es, tail)

/-- The `cmd_name_index` rebuild inside the doc loop of `load_index`. -/
def buildCmdIdx : Nat → List Bytes → List (Bytes × List Nat) → List (Bytes × List Nat)
  | _, [], m => m
  | i, c :: cs, m => buildCmdIdx (i + 1) cs (if c ≠ [] then pushA m c i else m)

/-- The `desc_index` rebuild of `load_index`: tokenize every stored
description and append the doc id under each token.  The tokenizer
(`tokenize` after the lossy UTF-8 decode) is the parameter `tok`. -/
def rebuildDescAux (tok : Bytes → List Bytes) :
    Nat → List Bytes → List (Bytes × List Nat) → List (Bytes × List Nat)
  | _, [], m => m
  | i, d :: ds, m =>
    rebuildDescAux tok (i + 1) ds ((tok d).foldl (fun m2 t => pushA m2 t i) m)

def rebuildDescIndex (tok : Bytes → List Bytes) (descs : List Bytes) :
    List (Bytes × List Nat) :=
  rebuildDescAux tok 0 descs []

/-- `load_index` from `src/index.rs`, step by step:  reject files under 8
bytes; read the footer; slice `[0, dict_offset)` (a panic when
`dict_offset > len`); parse the document arrays; slice
`[dict_offset, len - 8)` (a panic when `dict_offset > len - 8`); parse the
dictionary; rebuild `desc_index` from the stored descriptions. -/
def load_index (tok : Bytes → List Bytes) (mmap : Bytes) : Except LoadErr MmapIdx :=
  let len := mmap.length
  if len < 8 then .error .tooSmall
  else
    match readU64B (mmap.drop (len - 8)) with
    | none => .error .truncated
    | some (dictOff, _) =>
      if len < dictOff then .error .panicOob
      else
        match readU32B (mmap.take dictOff) with
        | none => .error .truncated
        | some (docCount, r1) =>
          match readDocsB docCount r1 with
          | none => .error .truncated
          | some (docs, _) =>
            if len - 8 < dictOff then .error .panicOob
            else
              match readU32B ((mmap.take (len - 8)).drop dictOff) with
              | none => .error .truncated
              | some (dictLen, r2) =>
                match readDictB dictLen r2 with
                | none => .error .truncated
                | some (entries, _) =>
                  .ok
                    { doc_map := docs.1
                      cmd_names := docs.2.1
                      name_descs := docs.2.2
                      inverted_dict := entries
                      cmd_name_index := buildCmdIdx 0 docs.2.1 []
                      desc_index := rebuildDescIndex tok docs.2.2
                      mmap := mmap }

/-- The outcome of `get_postings`: the word is absent (`None`), the
posting bytes are read (`Some postings`), or a slice index is out of range
(a Rust panic). -/
inductive PRes
  | panic
  | notFound
  | found (ps : List (Nat × Nat))
deriving DecidableEq

/-- The fetch loop of `get_postings`: `count` records of 8 bytes starting
at `offset`; `mmap[pos..pos + 4]` panics exactly when fewer than 4 bytes
remain. -/
def readPostingsAt (file : Bytes) : Nat → Nat → Option (List (Nat × Nat))
  | _, 0 => some []
  | pos, cnt + 1 =>
    match readU32B (file.drop pos) with
    | none => none
    | some (d, _) =>
      match readU32B (file.drop (pos + 4)) with
      | none => none
      | some (s, _) =>
        match readPostingsAt file (pos + 8) cnt with
        | none => none
        | some tail => some ((d, s) :: tail)

/-- `HashMap` lookup where repeated inserts of the same key overwrite: the
last entry for the key wins. -/
def alookupLast {α β : Type} [DecidableEq α] (m : List (α × β)) (k : α) : Option β :=
  alookup m.reverse k

/-- `MmapIndex::get_postings`. -/
def get_postings (M : MmapIdx) (w : Bytes) : PRes :=
  match alookupLast M.inverted_dict w with
  | none => .notFound
  | some oc =>
    match readPostingsAt M.mmap oc.1 oc.2 with
    | none => .panic
    | some ps => .found ps

/-- Well-formedness of a builder output, as `save_index` assumes it: the
three document arrays have equal length (pass 2 pushes one entry of each
per record), every `u32`-written quantity fits in 32 bits, and dictionary
keys are distinct (they come from a `HashMap`). -/
def wf32 (I : Index32) : Prop :=
  I.cmd_names.length = I.doc_map.length
  ∧ I.name_descs.length = I.doc_map.length
  ∧ I.doc_map.length < 4294967296
  ∧ I.inverted.length < 4294967296
  ∧ (∀ s ∈ I.doc_map, s.length < 4294967296)
  ∧ (∀ s ∈ I.cmd_names, s.length < 4294967296)
  ∧ (∀ s ∈ I.name_descs, s.length < 4294967296)
  ∧ (∀ e ∈ I.inverted, e.1.length < 4294967296 ∧ e.2.length < 4294967296
      ∧ ∀ p ∈ e.2, p.1 < 4294967296 ∧ p.2 < 4294967296)
  ∧ (I.inverted.map Prod.fst).Nodup

instance (I : Index32) : Decidable (wf32 I) := by
  unfold wf32; infer_instance

/-! ### `saveBody` produces a dictionary that fetches back every list -/

/-- What a dictionary entry guarantees about the file: same word, the
stored count is the posting-list length, and fetching `count` records at
`offset` recovers the list. -/
def DictEntryOk (file : Bytes) (e : Bytes × List (Nat × Nat))
    (de : Bytes × Nat × Nat) : Prop :=
  de.1 = e.1 ∧ de.2.2 = e.2.length ∧ readPostingsAt file de.2.1 de.2.2 = some e.2

/-! ### Loading a saved index -/

/-- The metadata region of a saved index. -/
def metaOf (I : Index32) : Bytes :=
  writeU32 I.doc_map.length ++ encodeDocs I.doc_map I.cmd_names I.name_descs

/-- The posting blob and the dictionary entries of a saved index. -/
def bodyOf (I : Index32) : Bytes × List (Bytes × Nat × Nat) :=
  saveBody (metaOf I).length I.inverted

/-- The dictionary offset recorded in the footer. -/
def dictOffOf (I : Index32) : Nat := (metaOf I).length + (bodyOf I).1.length

/-- The serialized dictionary region. -/
def dictBytesOf (I : Index32) : Bytes :=
  writeU32 (bodyOf I).2.length ++ encodeDictEntries (bodyOf I).2

/-- The `MmapIndex` value that loading a saved index produces. -/
def loadedOf (I : Index32) (tok : Bytes → List Bytes) : MmapIdx :=
  { doc_map := I.doc_map
    cmd_names := I.cmd_names
    name_descs := I.name_descs
    inverted_dict := (bodyOf I).2
    cmd_name_index := buildCmdIdx 0 I.cmd_names []
    desc_index := rebuildDescIndex tok I.name_descs
    mmap := save_index I }

/-! ### Characterizing the builder's inverted index -/

/-- The postings that the documents from id `i` on contribute to term `t`:
one entry per document whose combined score for `t` is strictly positive. -/
def invContrib (lnB : ℚ → ℚ) (n : ℚ) (stats : CrawlStatsM) (t : String) :
    Nat → List DocRec → List (Nat × ℚ)
  | _, [] => []
  | i, r :: rs =>
    (if t ∈ allTerms r ∧ 0 < docTermScore lnB n stats r t
     then [(i, docTermScore lnB n stats r t)] else [])
    ++ invContrib lnB n stats t (i + 1) rs

/-- Bound on every document id stored in the three index maps. -/
def buildBound (idx : IndexA) (N : Nat) : Prop :=
  (∀ e ∈ idx.inverted, ∀ p ∈ e.2, p.1 < N)
  ∧ (∀ e ∈ idx.cmdNameIndex, ∀ x ∈ e.2, x < N)
  ∧ (∀ e ∈ idx.descIndex, ∀ x ∈ e.2, x < N)

/-! ### The filename-base dedup (claim C7) -/

/-- Invariant of the `best_for_base` fold: `proc` is the part of `reranked`
already processed, `m` the accumulated map. -/
def DedupInv (docMap : List String) (proc : List (Nat × ℚ))
    (m : List (String × Nat × ℚ)) : Prop :=
  (m.map Prod.fst).Nodup
  ∧ (∀ e ∈ m, baseOf (docMap.getD e.2.1 "") = e.1
      ∧ e.2 ∈ proc
      ∧ ∀ q ∈ proc, baseOf (docMap.getD q.1 "") = e.1 → q.2 ≤ e.2.2)
  ∧ (∀ q ∈ proc, baseOf (docMap.getD q.1 "") ∈ m.map Prod.fst)

/-- The per-token posting map after the exact-match stage. -/
def tp0Of (idx : SIdx) (token : String) : List (Nat × ℚ) :=
  match alookup idx.dict token with
  | some ps => ps.foldl (fun m p => addA m p.1 p.2) []
  | none => []

/-- ... after the prefix-expansion stage. -/
def tp1Of (idx : SIdx) (token : String) (tokIdf : ℚ) : List (Nat × ℚ) :=
  if PFX_MIN_LEN ≤ token.utf8ByteSize ∧ PFX_MIN_IDF < tokIdf then
    idx.dict.foldl
      (fun m e =>
        if e.1 ≠ token ∧ startsL token.toList e.1.toList then
          let penalty : ℚ := (3 / 5 : ℚ) ^ (e.1.utf8ByteSize - token.utf8ByteSize + 1)
          e.2.foldl (fun m2 p => addA m2 p.1 (p.2 * penalty)) m
        else m)
      (tp0Of idx token)
  else tp0Of idx token

/-- ... after the fuzzy fallback. -/
def tp2Of (idx : SIdx) (token : String) (tokIdf : ℚ) : List (Nat × ℚ) :=
  if tp1Of idx token tokIdf = [] ∧ FUZZY_MIN_LEN ≤ token.utf8ByteSize then
    idx.dict.foldl
      (fun m e =>
        if absDiffN e.1.utf8ByteSize token.utf8ByteSize ≤ 1
            ∧ edit_distance e.1 token 1 ≤ 1 then
          e.2.foldl (fun m2 p => addA m2 p.1 (p.2 * (1 / 2))) m
        else m)
      (tp1Of idx token tokIdf)
  else tp1Of idx token tokIdf

/-- ... after the description pad: the final `token_posts` map. -/
def tp3Of (idx : SIdx) (token : String) (tokIdf : ℚ) : List (Nat × ℚ) :=
  match alookup idx.descIndex token with
  | some ds => ds.foldl (fun m d => padA m d) (tp2Of idx token tokIdf)
  | none => tp2Of idx token tokIdf

/-! ### Concrete instances used by the witnesses and counterexamples -/

/-- A tokenizer for the byte-level witnesses: one token per non-empty string. -/
def exTok : Bytes → List Bytes := fun bs => if bs = [] then [] else [bs]

/-- A two-document index ("a"/"bc", commands "b"/"", descriptions "cd"/"",
two posting lists). -/
def exI : Index32 :=
  { doc_map := [[97], [98, 99]]
    cmd_names := [[98], []]
    name_descs := [[99, 100], []]
    inverted := [([101, 102], [(0, 7), (1, 5)]), ([120], [(1, 9)])] }

/-- A file whose header parses (0 documents, one dictionary entry) but whose
dictionary entry points its postings at offset 9999 of a 33-byte file. -/
def c3File : Bytes :=
  writeU32 0 ++ (writeU32 1 ++ writeStrB [97] ++ writeU64 9999 ++ writeU32 1)
    ++ writeU64 4

/-- The index `load_index` accepts for `c3File`. -/
def c3M : MmapIdx :=
  ((load_index exTok c3File).toOption).getD ⟨[], [], [], [], [], [], []⟩

/-- One document whose command name is `ls` (everything else empty). -/
def c5Doc : DocRec :=
  { fname := "ls.1", cmdName := "ls", descLen := 0, synLen := 0, bodyLen := 0
    descTf := [], synTf := [], bodyTf := [], nameDescRaw := "" }

/-- A logarithm model for the witnesses: constantly 1. -/
def lnOne : ℚ → ℚ := fun _ => 1

/-- Empty crawl statistics. -/
def statsE : CrawlStatsM := { globalDf := [], avgDescLen := 0, avgSynopsisLen := 0, avgBodyLen := 0 }

/-- A one-document search index whose dictionary holds `grep` with one
posting of score 2. -/
def c2Idx : SIdx :=
  { docMap := ["grep.1"], nameDescs := [""]
    dict := [("grep", [(0, 2)])], descIndex := [] }

/-- A three-document search index: `abcd` occurs in two documents, `efgh`
in one, and `abcdz` extends `abcd`. -/
def c6Idx : SIdx :=
  { docMap := ["a.1", "b.1", "c.1"], nameDescs := ["", "", ""]
    dict := [("abcd", [(0, 1), (1, 1)]), ("efgh", [(2, 1)]), ("abcdz", [(2, 7)])]
    descIndex := [] }

/-- A logarithm model separating the two idf values of `c6Idx`. -/
def c6LnQ : ℚ → ℚ := fun x => if x < 2 then 0 else 2

/-! ## Proofs -/

lemma lev_nil_left (ys : List Char) : lev [] ys = ys.length := by
  induction ys with
  | nil => simp [lev]
  | cons y ys ih => rw [lev, levenshtein_nil_cons]; rw [lev] at ih; simp [ih]; omega

lemma lev_nil_right (xs : List Char) : lev xs [] = xs.length := by
  induction xs with
  | nil => simp [lev]
  | cons x xs ih => rw [lev, levenshtein_cons_nil]; rw [lev] at ih; simp [ih]; omega

lemma lev_cons_cons (x y : Char) (xs ys : List Char) :
    lev (x :: xs) (y :: ys) =
      min (1 + lev xs (y :: ys))
        (min (1 + lev (x :: xs) ys)
          ((if x = y then 0 else 1) + lev xs ys)) := by
  rw [lev, levenshtein_cons_cons]
  simp [lev, min_def]

/-- The Levenshtein distance is at least the length difference. -/
lemma lev_ge_diff :
    ∀ xs ys : List Char,
      xs.length - ys.length ≤ lev xs ys ∧ ys.length - xs.length ≤ lev xs ys := by
  intro xs
  induction xs with
  | nil => intro ys; simp [lev_nil_left]
  | cons x xs ih =>
    intro ys
    induction ys with
    | nil => simp [lev_nil_right]
    | cons y ys ihy =>
      have h1 := ih (y :: ys)
      have h2 := ih ys
      rw [lev_cons_cons]
      simp only [List.length_cons] at *
      omega

/-- The substitution cost is at most 1. -/
lemma subCost_le_one (x y : Char) : (if x = y then 0 else 1 : Nat) ≤ 1 := by
  by_cases h : x = y <;> simp [h]

/-- Dropping a trailing character of the second argument costs at most 1. -/
lemma lev_le_snoc_right :
    ∀ (xs ys : List Char) (y : Char), lev xs ys ≤ 1 + lev xs (ys ++ [y]) := by
  intro xs
  induction xs with
  | nil =>
    intro ys y
    rw [lev_nil_left, lev_nil_left]
    simp only [List.length_append, List.length_singleton]
    omega
  | cons x xs ih =>
    intro ys y
    induction ys with
    | nil =>
      simp only [List.nil_append]
      have h1 := ih ([] : List Char) y
      simp only [List.nil_append] at h1
      have e1 := lev_cons_cons x y xs []
      have e2 : lev (x :: xs) [] = xs.length + 1 := lev_nil_right _
      have e3 : lev xs [] = xs.length := lev_nil_right _
      have hs := subCost_le_one x y
      omega
    | cons z zs ihz =>
      have e0 : (z :: zs) ++ [y] = z :: (zs ++ [y]) := rfl
      rw [e0]
      have h1 := ih (z :: zs) y
      have h2 := ih zs y
      rw [e0] at h1
      have eL := lev_cons_cons x z xs zs
      have eR := lev_cons_cons x z xs (zs ++ [y])
      have hz : lev (x :: xs) zs ≤ 1 + lev (x :: xs) (zs ++ [y]) := ihz
      have hs := subCost_le_one x z
      omega

/-- Dropping a trailing character of the first argument costs at most 1. -/
lemma lev_le_snoc_left :
    ∀ (xs ys : List Char) (x : Char), lev xs ys ≤ 1 + lev (xs ++ [x]) ys := by
  intro xs
  induction xs with
  | nil =>
    intro ys x
    have h := (lev_ge_diff [x] ys).2
    rw [lev_nil_left]
    simp only [List.length_singleton] at h
    simp only [List.nil_append]
    omega
  | cons w ws ih =>
    intro ys x
    induction ys with
    | nil =>
      have e0 : (w :: ws) ++ [x] = w :: (ws ++ [x]) := rfl
      rw [e0, lev_nil_right, lev_nil_right]
      simp only [List.length_cons, List.length_append, List.length_singleton]
      omega
    | cons z zs ihz =>
      have e0 : (w :: ws) ++ [x] = w :: (ws ++ [x]) := rfl
      rw [e0]
      have h1 := ih (z :: zs) x
      have h2 := ih zs x
      have hz : lev (w :: ws) zs ≤ 1 + lev (w :: (ws ++ [x])) zs := by
        rw [← e0]; exact ihz
      have eL := lev_cons_cons w z ws zs
      have eR := lev_cons_cons w z (ws ++ [x]) zs
      have eG := lev_cons_cons w z ws zs
      have hs := subCost_le_one w z
      omega

set_option maxHeartbeats 800000 in
/-- The two-sided (back-peeling) recurrence for the Levenshtein distance:
the cell update used by the rolling-row algorithm. -/
lemma lev_snoc_snoc :
    ∀ (xs ys : List Char) (x y : Char),
      lev (xs ++ [x]) (ys ++ [y]) =
        min (1 + lev xs (ys ++ [y]))
          (min (1 + lev (xs ++ [x]) ys)
            ((if x = y then 0 else 1) + lev xs ys)) := by
  intro xs
  induction xs with
  | nil =>
    intro ys
    induction ys with
    | nil =>
      intro x y
      simpa using lev_cons_cons x y [] []
    | cons z zs ihz =>
      intro x y
      have e0 : (z :: zs) ++ [y] = z :: (zs ++ [y]) := rfl
      simp only [List.nil_append] at ihz ⊢
      rw [e0]
      have hE := lev_cons_cons x z [] (zs ++ [y])
      have hB := ihz x y
      have hF := lev_cons_cons x z [] zs
      have n1 : lev [] (z :: (zs ++ [y])) = zs.length + 2 := by
        rw [lev_nil_left]; simp
      have n2 : lev [] (zs ++ [y]) = zs.length + 1 := by rw [lev_nil_left]; simp
      have n3 : lev [] (z :: zs) = zs.length + 1 := by rw [lev_nil_left]; simp
      have n4 : lev [] zs = zs.length := lev_nil_left _
      omega
  | cons w ws ih =>
    intro ys
    induction ys with
    | nil =>
      intro x y
      have e0 : (w :: ws) ++ [x] = w :: (ws ++ [x]) := rfl
      simp only [List.nil_append]
      rw [e0]
      have hE := lev_cons_cons w y (ws ++ [x]) []
      have hA := ih ([] : List Char) x y
      simp only [List.nil_append] at hA
      have hG := lev_cons_cons w y ws []
      have n1 : lev (w :: (ws ++ [x])) [] = ws.length + 2 := by
        rw [lev_nil_right]; simp
      have n2 : lev (ws ++ [x]) [] = ws.length + 1 := by rw [lev_nil_right]; simp
      have n3 : lev (w :: ws) [] = ws.length + 1 := by rw [lev_nil_right]; rfl
      have n4 : lev ws [] = ws.length := lev_nil_right _
      omega
    | cons z zs ihz =>
      intro x y
      have e0 : (w :: ws) ++ [x] = w :: (ws ++ [x]) := rfl
      have e1 : (z :: zs) ++ [y] = z :: (zs ++ [y]) := rfl
      rw [e0, e1]
      have hA := ih (z :: zs) x y
      rw [e1] at hA
      have hB := ihz x y
      rw [e0] at hB
      have hC := ih zs x y
      rw [lev_cons_cons w z (ws ++ [x]) (zs ++ [y]), hA, hB, hC,
        lev_cons_cons w z ws (zs ++ [y]), lev_cons_cons w z (ws ++ [x]) zs,
        lev_cons_cons w z ws zs]
      refine le_antisymm ?_ ?_ <;>
        simp only [le_min_iff, min_le_iff] <;> omega

lemma rowsFrom_last (A : List Char) :
    ∀ (bs pb : List Char) (d : Nat), bs ≠ [] →
      (rowsFrom A pb bs).getLastD d = lev A (pb ++ bs) := by
  intro bs
  induction bs with
  | nil => intro pb d h; exact absurd rfl h
  | cons c cs ih =>
    intro pb d _
    cases hcs : cs with
    | nil => simp [rowsFrom]
    | cons c' cs' =>
      subst hcs
      rw [rowsFrom, List.getLastD_cons, ih (pb ++ [c]) _ (by simp)]
      simp

lemma rowSpec_last (A b : List Char) : (rowSpec A b).getLastD 0 = lev A b := by
  cases hb : b with
  | nil => simp [rowSpec, rowsFrom, lev_nil_right]
  | cons c cs =>
    rw [rowSpec, List.getLastD_cons, rowsFrom_last A _ _ _ (by simp)]
    simp

/-- Correctness of one cell walk: feeding the previous row (beyond the
already-consumed columns `pb`) produces the next row. -/
lemma levRowAux_spec (A : List Char) (x : Char) :
    ∀ (bs pb : List Char),
      levRowAux x bs (rowsFrom A pb bs) (lev A pb) (lev (A ++ [x]) pb) =
        rowsFrom (A ++ [x]) pb bs := by
  intro bs
  induction bs with
  | nil => intro pb; rfl
  | cons c cs ih =>
    intro pb
    rw [rowsFrom, rowsFrom, levRowAux]
    have hcell :
        (if x = c then lev A pb
         else 1 + min (min (lev A pb) (lev A (pb ++ [c]))) (lev (A ++ [x]) pb)) =
          lev (A ++ [x]) (pb ++ [c]) := by
      have hpeel := lev_snoc_snoc A pb x c
      have h1 := lev_le_snoc_right A pb c
      have h2 := lev_le_snoc_left A pb x
      by_cases hxy : x = c
      · rw [if_pos hxy]
        rw [if_pos hxy] at hpeel
        omega
      · rw [if_neg hxy]
        rw [if_neg hxy] at hpeel
        omega
    rw [hcell, ih (pb ++ [c])]

/-- Correctness of one full row update. -/
lemma levRow_spec (A b : List Char) (x : Char) :
    levRow x b (A.length + 1) (rowSpec A b) = rowSpec (A ++ [x]) b := by
  have h := levRowAux_spec A x b []
  rw [show lev A [] = A.length from lev_nil_right A] at h
  rw [show lev (A ++ [x]) [] = A.length + 1 from by rw [lev_nil_right]; simp] at h
  unfold levRow rowSpec
  simp only [List.tail_cons, List.headD_cons]
  rw [h]
  simp

lemma mem_rowsFrom_take (A : List Char) :
    ∀ (bs pb : List Char) (j : Nat), j ≤ bs.length →
      lev A (pb ++ bs.take j) ∈ (lev A pb :: rowsFrom A pb bs) := by
  intro bs
  induction bs with
  | nil =>
    intro pb j hj
    simp only [List.length_nil, Nat.le_zero] at hj
    simp [hj]
  | cons c cs ih =>
    intro pb j hj
    cases j with
    | zero => simp
    | succ j' =>
      rw [List.take_succ_cons]
      have hmem := ih (pb ++ [c]) j'
        (by simp only [List.length_cons] at hj; omega)
      rw [rowsFrom]
      have harr : pb ++ (c :: cs.take j') = (pb ++ [c]) ++ cs.take j' := by simp
      rw [harr]
      exact List.mem_cons_of_mem _ hmem

lemma foldl_min_le (l : List Nat) : ∀ a : Nat, l.foldl Nat.min a ≤ a ∧
    ∀ v ∈ l, l.foldl Nat.min a ≤ v := by
  induction l with
  | nil => intro a; simp
  | cons h t ih =>
    intro a
    have := ih (Nat.min a h)
    constructor
    · calc t.foldl Nat.min (Nat.min a h) ≤ Nat.min a h := this.1
        _ ≤ a := Nat.min_le_left _ _
    · intro v hv
      rcases List.mem_cons.mp hv with rfl | hv
      · calc t.foldl Nat.min (Nat.min a v) ≤ Nat.min a v := this.1
          _ ≤ v := Nat.min_le_right _ _
      · exact this.2 v hv

lemma rowMinVal_le_of_mem {l : List Nat} {v : Nat} (h : v ∈ l) : rowMinVal l ≤ v := by
  cases l with
  | nil => cases h
  | cons a t =>
    rcases List.mem_cons.mp h with rfl | hv
    · exact (foldl_min_le t v).1
    · exact (foldl_min_le t a).2 v hv

/-- Early-abort soundness, one step: some prefix-column cell of the current
row bounds the final distance after appending one more character. -/
lemma exists_take_le_snoc (A : List Char) (x : Char) :
    ∀ c : List Char, ∃ j ≤ c.length, lev A (c.take j) ≤ lev (A ++ [x]) c := by
  intro c
  induction c using List.reverseRecOn with
  | nil =>
    refine ⟨0, by simp, ?_⟩
    simp only [List.take_nil]
    rw [lev_nil_right, lev_nil_right]
    simp
  | append_singleton c' y ih =>
    have hpeel := lev_snoc_snoc A c' x y
    rcases ih with ⟨j'', hj'', hle⟩
    have hcase : lev (A ++ [x]) (c' ++ [y]) = 1 + lev A (c' ++ [y])
        ∨ lev (A ++ [x]) (c' ++ [y]) = 1 + lev (A ++ [x]) c'
        ∨ lev (A ++ [x]) (c' ++ [y]) = (if x = y then 0 else 1) + lev A c' := by
      omega
    rcases hcase with h | h | h
    · refine ⟨(c' ++ [y]).length, le_refl _, ?_⟩
      rw [List.take_length, h]
      omega
    · refine ⟨j'', by simp only [List.length_append, List.length_singleton]; omega, ?_⟩
      rw [List.take_append_of_le_length hj'', h]
      omega
    · refine ⟨c'.length, by simp, ?_⟩
      rw [List.take_left, h]
      by_cases hxy : x = y <;> simp [hxy] at h ⊢

/-- Early-abort soundness: some cell of row `|A|` is a lower bound for the
distance from any extension of `A` to `b`. -/
lemma exists_take_le (b : List Char) :
    ∀ (rest A : List Char), ∃ j ≤ b.length, lev A (b.take j) ≤ lev (A ++ rest) b := by
  intro rest
  induction rest with
  | nil =>
    intro A
    exact ⟨b.length, le_refl _, by rw [List.take_length]; simp⟩
  | cons x rest' ih =>
    intro A
    rcases ih (A ++ [x]) with ⟨j, hj, hle⟩
    rcases exists_take_le_snoc A x (b.take j) with ⟨j', hj', hle'⟩
    refine ⟨j', ?_, ?_⟩
    · calc j' ≤ (b.take j).length := hj'
        _ ≤ b.length := by simp
    · rw [List.take_take] at hle'
      rw [show min j' j = j' from by
        have : (b.take j).length ≤ j := by simp
        omega]  at hle'
      calc lev A (b.take j') ≤ lev (A ++ [x]) (b.take j) := hle'
        _ ≤ lev ((A ++ [x]) ++ rest') b := hle
        _ = lev (A ++ x :: rest') b := by rw [List.append_assoc]; rfl

/-- The loop either returns the exact distance, or aborts with `k + 1` and
the distance really exceeds `k`. -/
lemma edLoop_spec (k : Nat) (b : List Char) :
    ∀ (arest pfx : List Char),
      edLoop k b arest (pfx.length + 1) (rowSpec pfx b) = lev (pfx ++ arest) b
      ∨ (edLoop k b arest (pfx.length + 1) (rowSpec pfx b) = k + 1
         ∧ k < lev (pfx ++ arest) b) := by
  intro arest
  induction arest with
  | nil =>
    intro pfx
    left
    rw [edLoop, rowSpec_last]
    simp
  | cons ai rest ih =>
    intro pfx
    rw [edLoop]
    simp only [levRow_spec pfx b ai]
    by_cases habort : k < rowMinVal (rowSpec (pfx ++ [ai]) b)
    · right
      rw [if_pos habort]
      refine ⟨rfl, ?_⟩
      rcases exists_take_le b rest (pfx ++ [ai]) with ⟨j, hj, hle⟩
      have hmem : lev (pfx ++ [ai]) (b.take j) ∈ rowSpec (pfx ++ [ai]) b := by
        have := mem_rowsFrom_take (pfx ++ [ai]) b [] j hj
        simp only [List.nil_append] at this
        rw [rowSpec, show (pfx ++ [ai]).length = lev (pfx ++ [ai]) [] from
          (lev_nil_right _).symm]
        exact this
      have hmin := rowMinVal_le_of_mem hmem
      have : lev (pfx ++ [ai]) (b.take j) ≤ lev (pfx ++ ai :: rest) b := by
        calc lev (pfx ++ [ai]) (b.take j) ≤ lev ((pfx ++ [ai]) ++ rest) b := hle
          _ = lev (pfx ++ ai :: rest) b := by rw [List.append_assoc]; rfl
      omega
    · rw [if_neg habort]
      have := ih (pfx ++ [ai])
      rw [show (pfx ++ [ai]).length + 1 = pfx.length + 1 + 1 from by simp] at this
      rw [show (pfx ++ [ai]) ++ rest = pfx ++ ai :: rest from by
        rw [List.append_assoc]; rfl] at this
      exact this

lemma rowsFrom_nil_left : ∀ (bs pb : List Char),
    rowsFrom [] pb bs = List.range' (pb.length + 1) bs.length := by
  intro bs
  induction bs with
  | nil => intro pb; rfl
  | cons c cs ih =>
    intro pb
    rw [rowsFrom, lev_nil_left, ih (pb ++ [c])]
    simp only [List.length_cons, List.length_append, List.length_singleton,
      List.length_nil, Nat.zero_add]
    rw [List.range'_succ]

lemma rowSpec_nil_left (b : List Char) : rowSpec [] b = List.range (b.length + 1) := by
  rw [rowSpec, rowsFrom_nil_left, List.range_eq_range', List.range'_succ]
  rfl

/-- Full correctness of `edit_distance` against the true Levenshtein
distance: the result is either the distance itself or `maxDist + 1`, and in
the latter case the distance exceeds `maxDist`. -/
lemma edit_distance_spec (a b : String) (k : Nat) :
    edit_distance a b k = lev a.toList b.toList
    ∨ (edit_distance a b k = k + 1 ∧ k < lev a.toList b.toList) := by
  rw [edit_distance]
  by_cases hbail : k < max a.toList.length b.toList.length
      - min a.toList.length b.toList.length
  · right
    rw [if_pos hbail]
    have := lev_ge_diff a.toList b.toList
    exact ⟨rfl, by omega⟩
  · rw [if_neg hbail]
    have := edLoop_spec k b.toList a.toList []
    rw [rowSpec_nil_left] at this
    simpa using this

/-! ### Codec round-trip lemmas -/

lemma readU32_write (v : Nat) (r : Bytes) :
    readU32B (writeU32 v ++ r) = some (v % 4294967296, r) := by
  simp only [writeU32, List.cons_append, List.nil_append, readU32B,
    Option.some.injEq, Prod.mk.injEq]
  exact ⟨by omega, trivial⟩

lemma readU32_write_lt (v : Nat) (r : Bytes) (h : v < 4294967296) :
    readU32B (writeU32 v ++ r) = some (v, r) := by
  rw [readU32_write, Nat.mod_eq_of_lt h]

lemma readU64_write (v : Nat) (r : Bytes) :
    readU64B (writeU64 v ++ r) = some (v % 18446744073709551616, r) := by
  simp only [writeU64, List.cons_append, List.nil_append, readU64B,
    Option.some.injEq, Prod.mk.injEq]
  exact ⟨by omega, trivial⟩

lemma readU64_write_lt (v : Nat) (r : Bytes) (h : v < 18446744073709551616) :
    readU64B (writeU64 v ++ r) = some (v, r) := by
  rw [readU64_write, Nat.mod_eq_of_lt h]

lemma readU64_write_nil (v : Nat) (h : v < 18446744073709551616) :
    readU64B (writeU64 v) = some (v, []) := by
  have := readU64_write_lt v [] h
  rwa [List.append_nil] at this

lemma writeU64_length (v : Nat) : (writeU64 v).length = 8 := rfl

lemma writeU32_length (v : Nat) : (writeU32 v).length = 4 := rfl

lemma readStr_write (s : Bytes) (r : Bytes) (h : s.length < 4294967296) :
    readStrB (writeStrB s ++ r) = some (s, r) := by
  rw [writeStrB, List.append_assoc]
  simp only [readStrB, readU32_write_lt _ _ h]
  rw [if_pos (by simp)]
  rw [List.take_left, List.drop_left]

lemma readDocs_encode :
    ∀ (fs cs ds : List Bytes) (r : Bytes),
      cs.length = fs.length → ds.length = fs.length →
      (∀ s ∈ fs, s.length < 4294967296) →
      (∀ s ∈ cs, s.length < 4294967296) →
      (∀ s ∈ ds, s.length < 4294967296) →
      readDocsB fs.length (encodeDocs fs cs ds ++ r) = some ((fs, cs, ds), r) := by
  intro fs
  induction fs with
  | nil =>
    intro cs ds r hc hd _ _ _
    have hc' : cs = [] := List.length_eq_zero.mp (by simpa using hc)
    have hd' : ds = [] := List.length_eq_zero.mp (by simpa using hd)
    subst hc'; subst hd'
    rfl
  | cons f ft ih =>
    intro cs ds r hc hd hf1 hc1 hd1
    match cs, ds with
    | c :: ct, d :: dt =>
      simp only [List.length_cons] at hc hd
      rw [List.length_cons, readDocsB]
      simp only [encodeDocs, List.append_assoc]
      simp only [readStr_write _ _ (hf1 f (by simp)),
        readStr_write _ _ (hc1 c (by simp)),
        readStr_write _ _ (hd1 d (by simp)),
        ih ct dt r (by omega) (by omega)
          (fun s hs => hf1 s (by simp [hs]))
          (fun s hs => hc1 s (by simp [hs]))
          (fun s hs => hd1 s (by simp [hs]))]

lemma readDict_encode :
    ∀ (es : List (Bytes × Nat × Nat)) (r : Bytes),
      (∀ e ∈ es, e.1.length < 4294967296 ∧ e.2.1 < 18446744073709551616
        ∧ e.2.2 < 4294967296) →
      readDictB es.length (encodeDictEntries es ++ r) = some (es, r) := by
  intro es
  induction es with
  | nil => intro r _; rfl
  | cons e et ih =>
    intro r he
    obtain ⟨w, off, cnt⟩ := e
    have h := he (w, off, cnt) (by simp)
    rw [List.length_cons, readDictB]
    simp only [encodeDictEntries, List.append_assoc]
    simp only [readStr_write _ _ h.1, readU64_write_lt _ _ h.2.1,
      readU32_write_lt _ _ h.2.2, ih r (fun x hx => he x (by simp [hx]))]

lemma readPostingsAt_encode :
    ∀ (ps : List (Nat × Nat)) (pre post : Bytes),
      (∀ p ∈ ps, p.1 < 4294967296 ∧ p.2 < 4294967296) →
      readPostingsAt (pre ++ (encodePostings ps ++ post)) pre.length ps.length
        = some ps := by
  intro ps
  induction ps with
  | nil => intro pre post _; rfl
  | cons p pt ih =>
    intro pre post hp
    obtain ⟨d, s⟩ := p
    have hds := hp (d, s) (by simp)
    have e1 : (pre ++ (encodePostings ((d, s) :: pt) ++ post)).drop pre.length
        = writeU32 d ++ (writeU32 s ++ (encodePostings pt ++ post)) := by
      rw [List.drop_left, encodePostings]
      simp [List.append_assoc]
    have e2 : (pre ++ (encodePostings ((d, s) :: pt) ++ post)).drop (pre.length + 4)
        = writeU32 s ++ (encodePostings pt ++ post) := by
      have hsh : pre ++ (encodePostings ((d, s) :: pt) ++ post)
          = (pre ++ writeU32 d) ++ (writeU32 s ++ (encodePostings pt ++ post)) := by
        rw [encodePostings]; simp [List.append_assoc]
      have hl : (pre ++ writeU32 d).length = pre.length + 4 := by
        simp [writeU32_length]
      rw [hsh, ← hl, List.drop_left]
    have e3 : readPostingsAt (pre ++ (encodePostings ((d, s) :: pt) ++ post))
        (pre.length + 8) pt.length = some pt := by
      have hsh : pre ++ (encodePostings ((d, s) :: pt) ++ post)
          = (pre ++ writeU32 d ++ writeU32 s) ++ (encodePostings pt ++ post) := by
        rw [encodePostings]; simp [List.append_assoc]
      have hl3 : (pre ++ writeU32 d ++ writeU32 s).length = pre.length + 8 := by
        simp [writeU32_length]
      rw [hsh, ← hl3]
      exact ih _ post (fun x hx => hp x (by simp [hx]))
    rw [List.length_cons, readPostingsAt]
    simp only [e1, e2, e3, readU32_write_lt _ _ hds.1, readU32_write_lt _ _ hds.2]

/-! ### Association-list lookup lemmas -/

lemma alookup_eq_none {α β : Type} [DecidableEq α] :
    ∀ (m : List (α × β)) (k : α), k ∉ m.map Prod.fst → alookup m k = none := by
  intro m
  induction m with
  | nil => intro k _; rfl
  | cons e t ih =>
    intro k hk
    simp only [List.map_cons, List.mem_cons] at hk
    rw [alookup, if_neg (by tauto)]
    exact ih k (by tauto)

lemma alookup_append {α β : Type} [DecidableEq α] :
    ∀ (l₁ l₂ : List (α × β)) (k : α),
      alookup (l₁ ++ l₂) k =
        match alookup l₁ k with
        | some v => some v
        | none => alookup l₂ k := by
  intro l₁
  induction l₁ with
  | nil => intro l₂ k; rfl
  | cons e t ih =>
    intro l₂ k
    by_cases h : e.1 = k
    · rw [List.cons_append, show (e :: t : List (α × β)) = (e.1, e.2) :: t from rfl]
      rw [alookup, alookup, if_pos h, if_pos h]
    · rw [List.cons_append, show (e :: t : List (α × β)) = (e.1, e.2) :: t from rfl]
      rw [alookup, alookup, if_neg h, if_neg h, ih]

lemma alookupLast_eq_alookup {α β : Type} [DecidableEq α] :
    ∀ (m : List (α × β)) (k : α), (m.map Prod.fst).Nodup →
      alookupLast m k = alookup m k := by
  intro m
  induction m with
  | nil => intro k _; rfl
  | cons e t ih =>
    intro k hnd
    simp only [List.map_cons, List.nodup_cons] at hnd
    obtain ⟨w, v⟩ := e
    rw [alookupLast, List.reverse_cons, alookup_append]
    have hrev : alookup t.reverse k = alookup t k := by
      have h2 := ih k hnd.2
      rwa [alookupLast] at h2
    rw [hrev, alookup]
    by_cases h : w = k
    · subst h
      have hnone : alookup t w = none := alookup_eq_none t w hnd.1
      simp only [hnone]
      simp [alookup]
    · rw [if_neg h]
      cases halt : alookup t k with
      | none =>
        simp only [halt]
        simp [alookup, h, halt]
      | some v2 =>
        simp only [halt]
        rw [alookup, if_neg h, halt]

lemma saveBody_spec :
    ∀ (entries : List (Bytes × List (Nat × Nat))) (pre post file : Bytes),
      file = pre ++ ((saveBody pre.length entries).1 ++ post) →
      (∀ e ∈ entries, ∀ p ∈ e.2, p.1 < 4294967296 ∧ p.2 < 4294967296) →
      List.Forall₂ (DictEntryOk file) entries (saveBody pre.length entries).2 := by
  intro entries
  induction entries with
  | nil => intro pre post file _ _; exact List.Forall₂.nil
  | cons e rest ih =>
    intro pre post file hfile hwf
    obtain ⟨w, ps⟩ := e
    simp only [saveBody] at hfile ⊢
    refine List.Forall₂.cons ?_ ?_
    · refine ⟨rfl, rfl, ?_⟩
      have : file = pre ++ (encodePostings ps
          ++ ((saveBody (pre.length + (encodePostings ps).length) rest).1 ++ post)) := by
        rw [hfile]; simp [List.append_assoc]
      rw [this]
      exact readPostingsAt_encode ps pre _ (hwf (w, ps) (by simp))
    · have hplen : (pre ++ encodePostings ps).length
          = pre.length + (encodePostings ps).length := by simp
      have hfile' : file = (pre ++ encodePostings ps)
          ++ ((saveBody (pre ++ encodePostings ps).length rest).1 ++ post) := by
        rw [hplen, hfile]; simp [List.append_assoc]
      have := ih (pre ++ encodePostings ps) post file hfile'
        (fun x hx => hwf x (by simp [hx]))
      rwa [hplen] at this

lemma saveBody_len :
    ∀ (entries : List (Bytes × List (Nat × Nat))) (start : Nat),
      (saveBody start entries).2.length = entries.length := by
  intro entries
  induction entries with
  | nil => intro start; rfl
  | cons e rest ih =>
    intro start
    obtain ⟨w, ps⟩ := e
    simp only [saveBody, List.length_cons, ih]

lemma saveBody_keys :
    ∀ (entries : List (Bytes × List (Nat × Nat))) (start : Nat),
      (saveBody start entries).2.map (fun de => de.1) = entries.map Prod.fst := by
  intro entries
  induction entries with
  | nil => intro start; rfl
  | cons e rest ih =>
    intro start
    obtain ⟨w, ps⟩ := e
    simp only [saveBody, List.map_cons, ih]

lemma saveBody_mem :
    ∀ (entries : List (Bytes × List (Nat × Nat))) (start : Nat)
      (de : Bytes × Nat × Nat), de ∈ (saveBody start entries).2 →
      ∃ e ∈ entries, de.1 = e.1 ∧ de.2.2 = e.2.length ∧ start ≤ de.2.1
        ∧ de.2.1 ≤ start + (saveBody start entries).1.length := by
  intro entries
  induction entries with
  | nil => intro start de hde; cases hde
  | cons e rest ih =>
    intro start de hde
    obtain ⟨w, ps⟩ := e
    simp only [saveBody, List.mem_cons] at hde
    rcases hde with rfl | hde
    · refine ⟨(w, ps), List.mem_cons_self _ _, rfl, rfl, le_refl _, ?_⟩
      exact Nat.le_add_right _ _
    · obtain ⟨e', he', h1, h2, h3, h4⟩ :=
        ih (start + (encodePostings ps).length) de hde
      refine ⟨e', by simp [he'], h1, h2, by omega, ?_⟩
      simp only [saveBody, List.length_append]
      omega

/-- Walking `Forall₂ (DictEntryOk file)`: a lookup in the builder's
inverted index corresponds to a dictionary lookup that fetches the same
posting list. -/
lemma dict_fetch (file : Bytes) :
    ∀ (entries : List (Bytes × List (Nat × Nat))) (dict : List (Bytes × Nat × Nat)),
      List.Forall₂ (DictEntryOk file) entries dict → ∀ w : Bytes,
      (∀ ps, alookup entries w = some ps →
        ∃ oc, alookup dict w = some oc ∧ readPostingsAt file oc.1 oc.2 = some ps)
      ∧ (alookup entries w = none → alookup dict w = none) := by
  intro entries dict hf
  induction hf with
  | nil =>
    intro w
    constructor
    · intro ps h
      simp [alookup] at h
    · intro _
      rfl
  | cons hP hrest ih =>
    intro w
    rename_i e de et dt
    obtain ⟨hw, hcnt, hfetch⟩ := hP
    constructor
    · intro ps hps
      rw [alookup] at hps
      by_cases hwe : e.1 = w
      · rw [if_pos hwe] at hps
        injection hps with hps
        subst hps
        refine ⟨de.2, ?_, hfetch⟩
        rw [show (de :: dt : List (Bytes × Nat × Nat)) = (de.1, de.2) :: dt from rfl,
          alookup, if_pos (by rw [hw, hwe])]
      · rw [if_neg hwe] at hps
        obtain ⟨oc, hoc, hr⟩ := (ih w).1 ps hps
        refine ⟨oc, ?_, hr⟩
        rw [show (de :: dt : List (Bytes × Nat × Nat)) = (de.1, de.2) :: dt from rfl,
          alookup, if_neg (by rw [hw]; exact hwe)]
        exact hoc
    · intro hnone
      rw [alookup] at hnone
      by_cases hwe : e.1 = w
      · rw [if_pos hwe] at hnone; cases hnone
      · rw [if_neg hwe] at hnone
        rw [show (de :: dt : List (Bytes × Nat × Nat)) = (de.1, de.2) :: dt from rfl,
          alookup, if_neg (by rw [hw]; exact hwe)]
        exact (ih w).2 hnone

lemma save_index_eq (I : Index32) :
    save_index I = metaOf I ++ (bodyOf I).1 ++ dictBytesOf I ++ writeU64 (dictOffOf I) := rfl

lemma save_index_length (I : Index32) :
    (save_index I).length = dictOffOf I + (dictBytesOf I).length + 8 := by
  rw [save_index_eq, dictOffOf]
  simp [writeU64_length]
  omega

set_option maxHeartbeats 800000 in
/-- `load_index` of `save_index` succeeds and recovers the document arrays
verbatim, the dictionary entries of the saver, the rebuilt command-name
index, and the description index rebuilt from the stored descriptions. -/
lemma roundtrip_core (I : Index32) (tok : Bytes → List Bytes)
    (h : wf32 I) (hlen : (save_index I).length < 18446744073709551616) :
    load_index tok (save_index I) = .ok (loadedOf I tok) := by
  obtain ⟨hc, hd, hn32, hi32, hf1, hc1, hd1, hinv, hnd⟩ := h
  have hlen_eq := save_index_length I
  have hoff_le : dictOffOf I ≤ (save_index I).length := by omega
  have hoff64 : dictOffOf I < 18446744073709551616 := by omega
  have h8 : ¬ (save_index I).length < 8 := by omega
  have hdrop : (save_index I).drop ((save_index I).length - 8)
      = writeU64 (dictOffOf I) := by
    have hshape : save_index I
        = (metaOf I ++ (bodyOf I).1 ++ dictBytesOf I) ++ writeU64 (dictOffOf I) :=
      save_index_eq I
    have hplen : (metaOf I ++ (bodyOf I).1 ++ dictBytesOf I).length
        = (save_index I).length - 8 := by
      simp only [List.length_append]
      rw [dictOffOf] at hlen_eq
      omega
    rw [← hplen, hshape, List.drop_left]
  have hio : ¬ (save_index I).length < dictOffOf I := by omega
  have htake : (save_index I).take (dictOffOf I) = metaOf I ++ (bodyOf I).1 := by
    have hshape : save_index I
        = (metaOf I ++ (bodyOf I).1) ++ (dictBytesOf I ++ writeU64 (dictOffOf I)) := by
      rw [save_index_eq]; simp [List.append_assoc]
    have hplen : (metaOf I ++ (bodyOf I).1).length = dictOffOf I := by
      simp [dictOffOf]
    rw [hshape, ← hplen, List.take_left]
  have hmeta : metaOf I ++ (bodyOf I).1
      = writeU32 I.doc_map.length
        ++ (encodeDocs I.doc_map I.cmd_names I.name_descs ++ (bodyOf I).1) := by
    rw [metaOf, List.append_assoc]
  have hdocs : readDocsB I.doc_map.length
      (encodeDocs I.doc_map I.cmd_names I.name_descs ++ (bodyOf I).1)
      = some ((I.doc_map, I.cmd_names, I.name_descs), (bodyOf I).1) :=
    readDocs_encode I.doc_map I.cmd_names I.name_descs _ hc hd hf1 hc1 hd1
  have hio2 : ¬ (save_index I).length - 8 < dictOffOf I := by omega
  have hdictB : ((save_index I).take ((save_index I).length - 8)).drop (dictOffOf I)
      = dictBytesOf I := by
    have hshape : save_index I
        = (metaOf I ++ (bodyOf I).1 ++ dictBytesOf I) ++ writeU64 (dictOffOf I) :=
      save_index_eq I
    have hplen : (metaOf I ++ (bodyOf I).1 ++ dictBytesOf I).length
        = (save_index I).length - 8 := by
      simp only [List.length_append]
      rw [dictOffOf] at hlen_eq
      omega
    rw [← hplen, hshape, List.take_left]
    have hshape2 : metaOf I ++ (bodyOf I).1 ++ dictBytesOf I
        = (metaOf I ++ (bodyOf I).1) ++ dictBytesOf I := by
      simp [List.append_assoc]
    have hplen2 : (metaOf I ++ (bodyOf I).1).length = dictOffOf I := by
      simp [dictOffOf]
    rw [hshape2, ← hplen2, List.drop_left]
  have hdlen : (bodyOf I).2.length < 4294967296 := by
    rw [bodyOf, saveBody_len]; exact hi32
  have hdictEnc : readDictB (bodyOf I).2.length
      (encodeDictEntries (bodyOf I).2) = some ((bodyOf I).2, []) := by
    have hwfe : ∀ e ∈ (bodyOf I).2, e.1.length < 4294967296
        ∧ e.2.1 < 18446744073709551616 ∧ e.2.2 < 4294967296 := by
      intro de hde
      obtain ⟨e', he', h1, h2, h3, h4⟩ := saveBody_mem I.inverted (metaOf I).length de hde
      refine ⟨?_, ?_, ?_⟩
      · rw [h1]; exact (hinv e' he').1
      · have : de.2.1 ≤ dictOffOf I := by
          rw [dictOffOf]; exact h4
        omega
      · rw [h2]; exact (hinv e' he').2.1
    have := readDict_encode (bodyOf I).2 [] hwfe
    rwa [List.append_nil] at this
  rw [load_index]
  rw [if_neg h8]
  simp only [hdrop, readU64_write_nil _ hoff64]
  rw [if_neg hio]
  simp only [htake, hmeta, readU32_write_lt _ _ hn32, hdocs]
  rw [if_neg hio2]
  simp only [hdictB, dictBytesOf, readU32_write_lt _ _ hdlen, hdictEnc]
  rfl

/-- The posting lists fetched through the loaded dictionary and the mmap
are exactly the saved ones. -/
lemma loaded_get_postings (I : Index32) (tok : Bytes → List Bytes)
    (h : wf32 I) : ∀ w : Bytes,
      (∀ ps, alookup I.inverted w = some ps →
        get_postings (loadedOf I tok) w = .found ps)
      ∧ (alookup I.inverted w = none →
        get_postings (loadedOf I tok) w = .notFound) := by
  obtain ⟨hc, hd, hn32, hi32, hf1, hc1, hd1, hinv, hnd⟩ := h
  have hforall : List.Forall₂ (DictEntryOk (save_index I)) I.inverted (bodyOf I).2 := by
    have := saveBody_spec I.inverted (metaOf I)
      (dictBytesOf I ++ writeU64 (dictOffOf I)) (save_index I)
      (by rw [save_index_eq]; simp [List.append_assoc, bodyOf])
      (fun e he p hp => (hinv e he).2.2 p hp)
    rw [bodyOf]
    exact this
  have hkeysnd : ((bodyOf I).2.map (fun de => de.1)).Nodup := by
    rw [bodyOf, saveBody_keys]
    exact hnd
  intro w
  have hlast : alookupLast (loadedOf I tok).inverted_dict w = alookup (bodyOf I).2 w :=
    alookupLast_eq_alookup (bodyOf I).2 w hkeysnd
  constructor
  · intro ps hps
    obtain ⟨oc, hoc, hr⟩ := (dict_fetch (save_index I) _ _ hforall w).1 ps hps
    rw [get_postings]
    simp only [hlast, hoc]
    rw [show (loadedOf I tok).mmap = save_index I from rfl, hr]
  · intro hn
    rw [get_postings]
    simp only [hlast, (dict_fetch (save_index I) _ _ hforall w).2 hn]

lemma alookup_pushA_self {α β : Type} [DecidableEq α] :
    ∀ (m : List (α × List β)) (k : α) (v : β),
      alookup (pushA m k v) k = some ((alookup m k).getD [] ++ [v]) := by
  intro m
  induction m with
  | nil => intro k v; simp [pushA, alookup]
  | cons e t ih =>
    intro k v
    obtain ⟨k', vs⟩ := e
    by_cases h : k' = k
    · subst h
      rw [pushA, if_pos rfl, alookup, if_pos rfl, alookup, if_pos rfl]
      rfl
    · rw [pushA, if_neg h, alookup, if_neg h, alookup, if_neg h, ih]

lemma alookup_pushA_other {α β : Type} [DecidableEq α] :
    ∀ (m : List (α × List β)) (k k' : α) (v : β), k' ≠ k →
      alookup (pushA m k v) k' = alookup m k' := by
  intro m
  induction m with
  | nil =>
    intro k k' v hne
    show alookup [(k, [v])] k' = none
    rw [alookup, if_neg (fun he : k = k' => hne he.symm)]
    rfl
  | cons e t ih =>
    intro k k' v hne
    obtain ⟨k₀, vs⟩ := e
    by_cases h : k₀ = k
    · subst h
      rw [pushA, if_pos rfl]
      show (if k₀ = k' then some (vs ++ [v]) else alookup t k')
        = (if k₀ = k' then some vs else alookup t k')
      by_cases h2 : k₀ = k'
      · exact absurd h2.symm hne
      · rw [if_neg h2, if_neg h2]
    · rw [pushA, if_neg h]
      show (if k₀ = k' then some vs else alookup (pushA t k v) k')
        = (if k₀ = k' then some vs else alookup t k')
      by_cases h2 : k₀ = k'
      · rw [if_pos h2, if_pos h2]
      · rw [if_neg h2, if_neg h2, ih _ _ _ hne]

/-- Folding a conditional `pushA` over a list of distinct keys appends at
most one value to a key's list. -/
lemma fold_push_lookup {α β : Type} [DecidableEq α] (P : α → Prop)
    [DecidablePred P] (g : α → β) :
    ∀ (ts : List α) (acc : List (α × List β)) (t : α), ts.Nodup →
      (alookup (ts.foldl (fun m u => if P u then pushA m u (g u) else m) acc) t).getD []
        = (if t ∈ ts ∧ P t then (alookup acc t).getD [] ++ [g t]
           else (alookup acc t).getD []) := by
  intro ts
  induction ts with
  | nil =>
    intro acc t _
    simp
  | cons u us ih =>
    intro acc t hnd
    simp only [List.nodup_cons] at hnd
    rw [List.foldl_cons]
    rw [ih _ t hnd.2]
    by_cases htu : t = u
    · subst htu
      have htus : t ∉ us := hnd.1
      rw [if_neg (by tauto)]
      by_cases hp : P t
      · rw [if_pos hp, alookup_pushA_self]
        rw [if_pos (by exact ⟨by simp, hp⟩)]
        rfl
      · rw [if_neg hp, if_neg (by tauto)]
    · have hacc : (alookup (if P u then pushA acc u (g u) else acc) t).getD []
          = (alookup acc t).getD [] := by
        by_cases hp : P u
        · rw [if_pos hp, alookup_pushA_other _ _ _ _ htu]
        · rw [if_neg hp]
      rw [hacc]
      by_cases hm : t ∈ us ∧ P t
      · rw [if_pos hm, if_pos (by exact ⟨by simp [hm.1], hm.2⟩)]
      · rw [if_neg hm, if_neg (by simp [htu]; tauto)]

/-- The builder's inverted index, characterized: the posting list of `t`
is whatever the accumulator already held followed by the contributions of
the processed records in id order. -/
lemma buildDocs_inverted (lnB : ℚ → ℚ) (n : ℚ) (stats : CrawlStatsM) (t : String) :
    ∀ (docs : List DocRec) (i : Nat) (acc : IndexA),
      (alookup (buildDocs lnB n stats i docs acc).inverted t).getD []
        = (alookup acc.inverted t).getD [] ++ invContrib lnB n stats t i docs := by
  intro docs
  induction docs with
  | nil => intro i acc; simp [buildDocs, invContrib]
  | cons r rs ih =>
    intro i acc
    rw [buildDocs, ih]
    rw [invContrib]
    have hstep : (alookup (buildStep lnB n stats acc i r).inverted t).getD []
        = (alookup acc.inverted t).getD []
          ++ (if t ∈ allTerms r ∧ 0 < docTermScore lnB n stats r t
              then [(i, docTermScore lnB n stats r t)] else []) := by
      rw [buildStep]
      have := fold_push_lookup (fun u => 0 < docTermScore lnB n stats r u)
        (fun u => (i, docTermScore lnB n stats r u)) (allTerms r) acc.inverted t
        (List.nodup_dedup _)
      simp only at this
      rw [this]
      by_cases hm : t ∈ allTerms r ∧ 0 < docTermScore lnB n stats r t
      · rw [if_pos hm, if_pos hm]
      · rw [if_neg hm, if_neg hm, List.append_nil]
    rw [hstep, List.append_assoc]

lemma mem_invContrib (lnB : ℚ → ℚ) (n : ℚ) (stats : CrawlStatsM) (t : String) :
    ∀ (docs : List DocRec) (i : Nat) (d : Nat) (s : ℚ),
      (d, s) ∈ invContrib lnB n stats t i docs ↔
        ∃ j r, docs[j]? = some r ∧ d = i + j ∧ t ∈ allTerms r
          ∧ s = docTermScore lnB n stats r t ∧ 0 < s := by
  intro docs
  induction docs with
  | nil =>
    intro i d s
    simp [invContrib]
  | cons r rs ih =>
    intro i d s
    rw [invContrib]
    constructor
    · intro hmem
      rw [List.mem_append] at hmem
      rcases hmem with hmem | hmem
      · by_cases hc : t ∈ allTerms r ∧ 0 < docTermScore lnB n stats r t
        · rw [if_pos hc, List.mem_singleton] at hmem
          injection hmem with h1 h2
          exact ⟨0, r, by simp, by omega, hc.1, h2, by rw [h2]; exact hc.2⟩
        · rw [if_neg hc] at hmem
          cases hmem
      · obtain ⟨j, r', hj, hd2, hmemt, hs, hpos⟩ := (ih (i + 1) d s).mp hmem
        exact ⟨j + 1, r', by simpa using hj, by omega, hmemt, hs, hpos⟩
    · rintro ⟨j, r', hj, hd2, hmemt, hs, hpos⟩
      cases j with
      | zero =>
        simp only [List.getElem?_cons_zero, Option.some.injEq] at hj
        subst hj
        rw [List.mem_append]
        left
        rw [if_pos ⟨hmemt, by rw [hs] at hpos; exact hpos⟩]
        simp only [List.mem_singleton, Prod.mk.injEq]
        exact ⟨by omega, hs⟩
      | succ j' =>
        rw [List.mem_append]
        right
        exact (ih (i + 1) d s).mpr
          ⟨j', r', by simpa using hj, by omega, hmemt, hs, hpos⟩

/-- `bm25` returns 0 on a zero term frequency. -/
lemma bm25_zero_tf (lnB : ℚ → ℚ) (dl avgdl n df : ℚ) :
    bm25_term lnB 0 dl avgdl n df = 0 := by
  rw [bm25_term, if_pos (Or.inl rfl)]

/-- A term outside a record's term set scores 0 for that record. -/
lemma score_zero_of_not_mem (lnB : ℚ → ℚ) (n : ℚ) (stats : CrawlStatsM)
    (r : DocRec) (t : String) (h : t ∉ allTerms r) :
    docTermScore lnB n stats r t = 0 := by
  rw [allTerms, List.mem_dedup] at h
  simp only [List.mem_append, List.mem_singleton] at h
  push_neg at h
  have hdesc := h.1.1.1
  have hsyn := h.1.1.2
  have hbody := h.1.2
  have hcmd := h.2
  have hd0 : tfOf r.descTf t = 0 := by
    rw [tfOf, alookup_eq_none _ _ hdesc]
  have hs0 : tfOf r.synTf t = 0 := by
    rw [tfOf, alookup_eq_none _ _ hsyn]
  have hb0 : tfOf r.bodyTf t = 0 := by
    rw [tfOf, alookup_eq_none _ _ hbody]
  simp only [docTermScore, hd0, hs0, hb0, bm25_zero_tf, zero_mul, ite_self]
  rw [if_neg (fun hpair => hcmd hpair.1)]
  simp

lemma alookup_map_values {α β γ : Type} [DecidableEq α] (g : β → γ) :
    ∀ (m : List (α × β)) (k : α),
      alookup (m.map (fun e => (e.1, g e.2))) k = (alookup m k).map g := by
  intro m
  induction m with
  | nil => intro k; rfl
  | cons e t ih =>
    intro k
    obtain ⟨k₀, v⟩ := e
    show (if k₀ = k then some (g v) else alookup (t.map _) k) = _
    by_cases h : k₀ = k
    · rw [if_pos h]
      show _ = (if k₀ = k then some v else alookup t k).map g
      rw [if_pos h]
      rfl
    · rw [if_neg h, ih]
      show _ = (if k₀ = k then some v else alookup t k).map g
      rw [if_neg h]

/-- The posting list a built index assigns to `t`: the sorted contributions
of all records. -/
lemma build_index_invList (lnB : ℚ → ℚ) (stats : CrawlStatsM) (docs : List DocRec)
    (t : String) :
    invList (build_index lnB stats docs) t
      = sortByScoreDesc (invContrib lnB (docs.length : ℚ) stats t 0 docs) := by
  rw [build_index, invList]
  show ((alookup ((buildDocs lnB (docs.length : ℚ) stats 0 docs emptyIndexA).inverted.map
    (fun e => (e.1, sortByScoreDesc e.2))) t).getD []) = _
  rw [alookup_map_values]
  have hchar := buildDocs_inverted lnB (docs.length : ℚ) stats t docs 0 emptyIndexA
  rw [show alookup emptyIndexA.inverted t = none from rfl] at hchar
  rw [show ((none : Option (List (Nat × ℚ))).getD []) = [] from rfl,
    List.nil_append] at hchar
  cases hlk : alookup (buildDocs lnB (docs.length : ℚ) stats 0 docs emptyIndexA).inverted t with
  | none =>
    rw [hlk] at hchar
    rw [show ((none : Option (List (Nat × ℚ))).getD []) = [] from rfl] at hchar
    rw [← hchar]
    show ([] : List (Nat × ℚ)) = sortByScoreDesc []
    rw [sortByScoreDesc, List.mergeSort_nil]
  | some ps =>
    rw [hlk] at hchar
    rw [show ((some ps).getD []) = ps from rfl] at hchar
    rw [← hchar]
    rfl

lemma mem_sortByScoreDesc {α : Type} (ps : List (α × ℚ)) (p : α × ℚ) :
    p ∈ sortByScoreDesc ps ↔ p ∈ ps :=
  (List.mergeSort_perm ps _).mem_iff

/-! ### Lengths and id bounds of the built index (claim C10) -/

lemma buildDocs_lengths (lnB : ℚ → ℚ) (n : ℚ) (stats : CrawlStatsM) :
    ∀ (docs : List DocRec) (i : Nat) (acc : IndexA),
      (buildDocs lnB n stats i docs acc).docMap.length
          = acc.docMap.length + docs.length
      ∧ (buildDocs lnB n stats i docs acc).cmdNames.length
          = acc.cmdNames.length + docs.length
      ∧ (buildDocs lnB n stats i docs acc).nameDescs.length
          = acc.nameDescs.length + docs.length := by
  intro docs
  induction docs with
  | nil => intro i acc; simp [buildDocs]
  | cons r rs ih =>
    intro i acc
    rw [buildDocs]
    obtain ⟨h1, h2, h3⟩ := ih (i + 1) (buildStep lnB n stats acc i r)
    rw [h1, h2, h3]
    simp [buildStep]
    omega

lemma pushA_forall {α β : Type} [DecidableEq α] (P : β → Prop) :
    ∀ (m : List (α × List β)) (k : α) (v : β),
      (∀ e ∈ m, ∀ x ∈ e.2, P x) → P v →
      ∀ e ∈ pushA m k v, ∀ x ∈ e.2, P x := by
  intro m
  induction m with
  | nil =>
    intro k v _ hv e he x hx
    simp only [pushA, List.mem_singleton] at he
    subst he
    simp only [List.mem_singleton] at hx
    subst hx
    exact hv
  | cons e₀ t ih =>
    intro k v hm hv e he x hx
    obtain ⟨k₀, vs⟩ := e₀
    by_cases h : k₀ = k
    · rw [pushA, if_pos h] at he
      rcases List.mem_cons.mp he with rfl | he
      · rcases List.mem_append.mp hx with hx | hx
        · exact hm (k₀, vs) (by simp) x hx
        · rw [List.mem_singleton] at hx
          subst hx
          exact hv
      · exact hm e (by simp [he]) x hx
    · rw [pushA, if_neg h] at he
      rcases List.mem_cons.mp he with rfl | he
      · exact hm (k₀, vs) (by simp) x hx
      · exact ih k v (fun e' he' => hm e' (by simp [he'])) hv e he x hx

/-- Folding a (conditional) `pushA` of bounded values preserves the bound. -/
lemma foldl_push_forall {α β γ : Type} [DecidableEq α] (P : β → Prop)
    (f : γ → α) (g : γ → β) (Q : γ → Prop) [DecidablePred Q] :
    ∀ (ts : List γ) (m : List (α × List β)),
      (∀ e ∈ m, ∀ x ∈ e.2, P x) → (∀ u, P (g u)) →
      ∀ e ∈ ts.foldl (fun m2 u => if Q u then pushA m2 (f u) (g u) else m2) m,
        ∀ x ∈ e.2, P x := by
  intro ts
  induction ts with
  | nil => intro m hm _; exact hm
  | cons u us ih =>
    intro m hm hg
    rw [List.foldl_cons]
    apply ih
    · by_cases hq : Q u
      · rw [if_pos hq]
        exact pushA_forall P m (f u) (g u) hm (hg u)
      · rw [if_neg hq]
        exact hm
    · exact hg

lemma buildStep_bound (lnB : ℚ → ℚ) (n : ℚ) (stats : CrawlStatsM)
    (acc : IndexA) (i : Nat) (r : DocRec) (N : Nat) (hi : i < N)
    (h : buildBound acc N) : buildBound (buildStep lnB n stats acc i r) N := by
  obtain ⟨h1, h2, h3⟩ := h
  refine ⟨?_, ?_, ?_⟩
  · show ∀ e ∈ (allTerms r).foldl _ acc.inverted, ∀ p ∈ e.2, p.1 < N
    exact foldl_push_forall (fun p => p.1 < N) id
      (fun u => (i, docTermScore lnB n stats r u))
      (fun u => 0 < docTermScore lnB n stats r u) (allTerms r) acc.inverted h1
      (fun _ => hi)
  · show ∀ e ∈ (if r.cmdName ≠ "" then pushA acc.cmdNameIndex r.cmdName i
        else acc.cmdNameIndex), ∀ x ∈ e.2, x < N
    by_cases hc : r.cmdName ≠ ""
    · rw [if_pos hc]
      exact pushA_forall _ _ _ _ h2 hi
    · rw [if_neg hc]
      exact h2
  · show ∀ e ∈ (r.descTf.map Prod.fst).foldl (fun m t => pushA m t i) acc.descIndex,
        ∀ x ∈ e.2, x < N
    have := foldl_push_forall (fun x => x < N) id (fun _ => i)
      (fun _ => True) (r.descTf.map Prod.fst) acc.descIndex h3 (fun _ => hi)
    simp only [if_pos trivial] at this
    exact this

lemma buildDocs_bound (lnB : ℚ → ℚ) (n : ℚ) (stats : CrawlStatsM) (N : Nat) :
    ∀ (docs : List DocRec) (i : Nat) (acc : IndexA),
      buildBound acc N → i + docs.length ≤ N →
      buildBound (buildDocs lnB n stats i docs acc) N := by
  intro docs
  induction docs with
  | nil => intro i acc h _; exact h
  | cons r rs ih =>
    intro i acc h hle
    rw [buildDocs]
    apply ih
    · exact buildStep_bound lnB n stats acc i r N (by simp at hle; omega) h
    · simp at hle ⊢
      omega

lemma build_index_bound (lnB : ℚ → ℚ) (stats : CrawlStatsM) (docs : List DocRec) :
    buildBound (build_index lnB stats docs) docs.length := by
  have hraw := buildDocs_bound lnB (docs.length : ℚ) stats docs.length docs 0
    emptyIndexA ⟨by simp [emptyIndexA], by simp [emptyIndexA], by simp [emptyIndexA]⟩
    (by omega)
  obtain ⟨h1, h2, h3⟩ := hraw
  refine ⟨?_, h2, h3⟩
  intro e he p hp
  rw [build_index] at he
  simp only [List.mem_map] at he
  obtain ⟨e', he', rfl⟩ := he
  exact h1 e' he' p ((mem_sortByScoreDesc e'.2 p).mp hp)

lemma build_index_lengths (lnB : ℚ → ℚ) (stats : CrawlStatsM) (docs : List DocRec) :
    (build_index lnB stats docs).docMap.length = docs.length
    ∧ (build_index lnB stats docs).cmdNames.length = docs.length
    ∧ (build_index lnB stats docs).nameDescs.length = docs.length := by
  have := buildDocs_lengths lnB (docs.length : ℚ) stats docs 0 emptyIndexA
  rw [build_index]
  simpa [emptyIndexA] using this

lemma dedupIns_keys :
    ∀ (m : List (String × Nat × ℚ)) (b : String) (d : Nat) (s : ℚ),
      (dedupIns m b d s).map Prod.fst
        = if b ∈ m.map Prod.fst then m.map Prod.fst else m.map Prod.fst ++ [b] := by
  intro m
  induction m with
  | nil => intro b d s; simp [dedupIns]
  | cons e rest ih =>
    intro b d s
    obtain ⟨b', e₀⟩ := e
    rw [dedupIns]
    by_cases h : b' = b
    · subst h
      rw [if_pos rfl]
      by_cases hlt : e₀.2 < s
      · rw [if_pos hlt]
        simp
      · rw [if_neg hlt]
        simp
    · rw [if_neg h, List.map_cons, ih]
      by_cases hmem : b ∈ rest.map Prod.fst
      · rw [if_pos hmem, List.map_cons,
          if_pos (List.mem_cons.mpr (Or.inr hmem))]
      · rw [if_neg hmem, List.map_cons]
        rw [if_neg (fun hc => by
          rcases List.mem_cons.mp hc with hc | hc
          · exact h hc.symm
          · exact hmem hc)]
        rfl

lemma mem_dedupIns :
    ∀ (m : List (String × Nat × ℚ)) (b : String) (d : Nat) (s : ℚ),
      (m.map Prod.fst).Nodup →
      ∀ e ∈ dedupIns m b d s,
        (e ∈ m ∧ (e.1 = b → s ≤ e.2.2))
        ∨ (e.1 = b ∧ e.2 = (d, s)
            ∧ (b ∉ m.map Prod.fst ∨ ∃ e₀, (b, e₀) ∈ m ∧ e₀.2 < s)) := by
  intro m
  induction m with
  | nil =>
    intro b d s _ e he
    simp only [dedupIns, List.mem_singleton] at he
    subst he
    exact Or.inr ⟨rfl, rfl, Or.inl (by simp)⟩
  | cons hd rest ih =>
    intro b d s hnd e he
    obtain ⟨b', e₀⟩ := hd
    have hnd' : (rest.map Prod.fst).Nodup := (List.nodup_cons.mp hnd).2
    have hb' : b' ∉ rest.map Prod.fst := (List.nodup_cons.mp hnd).1
    rw [dedupIns] at he
    by_cases h : b' = b
    · subst h
      rw [if_pos rfl] at he
      by_cases hlt : e₀.2 < s
      · rw [if_pos hlt] at he
        rcases List.mem_cons.mp he with rfl | he
        · exact Or.inr ⟨rfl, rfl, Or.inr ⟨e₀, by simp, hlt⟩⟩
        · refine Or.inl ⟨List.mem_cons.mpr (Or.inr he), fun hb => absurd ?_ hb'⟩
          rw [← hb]
          exact List.mem_map.mpr ⟨e, he, rfl⟩
      · rw [if_neg hlt] at he
        rcases List.mem_cons.mp he with rfl | he
        · exact Or.inl ⟨List.mem_cons.mpr (Or.inl rfl), fun _ => le_of_not_lt hlt⟩
        · refine Or.inl ⟨List.mem_cons.mpr (Or.inr he), fun hb => absurd ?_ hb'⟩
          rw [← hb]
          exact List.mem_map.mpr ⟨e, he, rfl⟩
    · rw [if_neg h] at he
      rcases List.mem_cons.mp he with rfl | he
      · exact Or.inl ⟨List.mem_cons.mpr (Or.inl rfl), fun hb => absurd hb h⟩
      · rcases ih b d s hnd' e he with ⟨hm, hle⟩ | ⟨h1, h2, h3⟩
        · exact Or.inl ⟨List.mem_cons.mpr (Or.inr hm), hle⟩
        · refine Or.inr ⟨h1, h2, ?_⟩
          rcases h3 with h3 | ⟨e₁, he₁, hlt⟩
          · refine Or.inl (fun hc => ?_)
            rw [List.map_cons] at hc
            rcases List.mem_cons.mp hc with hc | hc
            · exact h hc.symm
            · exact h3 hc
          · exact Or.inr ⟨e₁, List.mem_cons.mpr (Or.inr he₁), hlt⟩

lemma dedupIns_inv (docMap : List String) (proc : List (Nat × ℚ))
    (m : List (String × Nat × ℚ)) (d : Nat) (s : ℚ)
    (h : DedupInv docMap proc m) :
    DedupInv docMap (proc ++ [(d, s)])
      (dedupIns m (baseOf (docMap.getD d "")) d s) := by
  obtain ⟨hnd, hent, hcomp⟩ := h
  refine ⟨?_, ?_, ?_⟩
  · rw [dedupIns_keys]
    by_cases hb : baseOf (docMap.getD d "") ∈ m.map Prod.fst
    · rw [if_pos hb]; exact hnd
    · rw [if_neg hb]
      rw [List.nodup_append]
      exact ⟨hnd, List.nodup_singleton _, fun a ha hb' => by
        rw [List.mem_singleton] at hb'
        subst hb'
        exact hb ha⟩
  · intro e he
    rcases mem_dedupIns m (baseOf (docMap.getD d "")) d s hnd e he with
      ⟨hm, hle⟩ | ⟨h1, h2, h3⟩
    · obtain ⟨hbase, hproc, hmax⟩ := hent e hm
      refine ⟨hbase, List.mem_append.mpr (Or.inl hproc), fun q hq hbq => ?_⟩
      rcases List.mem_append.mp hq with hq | hq
      · exact hmax q hq hbq
      · rw [List.mem_singleton] at hq
        subst hq
        show s ≤ e.2.2
        exact hle (by rw [← hbq])
    · refine ⟨by rw [h2, h1], List.mem_append.mpr (Or.inr (by rw [h2]; simp)),
        fun q hq hbq => ?_⟩
      rcases List.mem_append.mp hq with hq | hq
      · rcases h3 with h3 | ⟨e₁, he₁, hlt⟩
        · exact absurd (by rw [← h1, ← hbq]; exact hcomp q hq) h3
        · obtain ⟨hbase₁, _, hmax₁⟩ := hent (baseOf (docMap.getD d ""), e₁) he₁
          have := hmax₁ q hq (by rw [hbq, h1])
          rw [h2]
          exact le_of_lt (lt_of_le_of_lt this hlt)
      · rw [List.mem_singleton] at hq
        subst hq
        rw [h2]
  · intro q hq
    rw [dedupIns_keys]
    rcases List.mem_append.mp hq with hq | hq
    · have := hcomp q hq
      by_cases hb : baseOf (docMap.getD d "") ∈ m.map Prod.fst
      · rw [if_pos hb]; exact this
      · rw [if_neg hb]; exact List.mem_append.mpr (Or.inl this)
    · rw [List.mem_singleton] at hq
      subst hq
      by_cases hb : baseOf (docMap.getD d "") ∈ m.map Prod.fst
      · rw [if_pos hb]; exact hb
      · rw [if_neg hb]; exact List.mem_append.mpr (Or.inr (by simp))

lemma dedup_fold_inv (docMap : List String) :
    ∀ (l proc : List (Nat × ℚ)) (m : List (String × Nat × ℚ)),
      DedupInv docMap proc m →
      DedupInv docMap (proc ++ l)
        (l.foldl (fun m p => dedupIns m (baseOf (docMap.getD p.1 "")) p.1 p.2) m) := by
  intro l
  induction l with
  | nil => intro proc m h; simpa using h
  | cons p t ih =>
    intro proc m h
    rw [List.foldl_cons]
    have := ih (proc ++ [p]) (dedupIns m (baseOf (docMap.getD p.1 "")) p.1 p.2)
      (dedupIns_inv docMap proc m p.1 p.2 h)
    rw [List.append_assoc] at this
    simpa using this

lemma dedupStage_inv (docMap : List String) (reranked : List (Nat × ℚ)) :
    DedupInv docMap reranked
      (reranked.foldl
        (fun m p => dedupIns m (baseOf (docMap.getD p.1 "")) p.1 p.2) []) := by
  have := dedup_fold_inv docMap reranked [] []
    ⟨List.nodup_nil, fun e he => absurd he (List.not_mem_nil e),
     fun q hq => absurd hq (List.not_mem_nil q)⟩
  simpa using this

/-- The entries of `dedupStage` come from `reranked`, are per-base maxima,
and have pairwise-distinct bases. -/
lemma dedupStage_spec (docMap : List String) (reranked : List (Nat × ℚ)) :
    (dedupStage docMap reranked).Pairwise
      (fun p q => baseOf (docMap.getD p.1 "") ≠ baseOf (docMap.getD q.1 ""))
    ∧ ∀ p ∈ dedupStage docMap reranked,
        p ∈ reranked
        ∧ ∀ q ∈ reranked,
            baseOf (docMap.getD q.1 "") = baseOf (docMap.getD p.1 "") → q.2 ≤ p.2 := by
  obtain ⟨hnd, hent, _⟩ := dedupStage_inv docMap reranked
  set best := reranked.foldl
    (fun m p => dedupIns m (baseOf (docMap.getD p.1 "")) p.1 p.2) [] with hbest
  constructor
  · show (sortByScoreDesc (best.map Prod.snd)).Pairwise _
    have hperm : (sortByScoreDesc (best.map Prod.snd)).Perm (best.map Prod.snd) :=
      List.mergeSort_perm (best.map Prod.snd) _
    have hmapeq : (best.map Prod.snd).map (fun p => baseOf (docMap.getD p.1 ""))
        = best.map Prod.fst := by
      rw [List.map_map]
      exact List.map_congr_left (fun e he => (hent e he).1)
    have hnodup : ((sortByScoreDesc (best.map Prod.snd)).map
        (fun p => baseOf (docMap.getD p.1 ""))).Nodup := by
      refine (hperm.map (fun p => baseOf (docMap.getD p.1 ""))).nodup_iff.mpr ?_
      rw [hmapeq]
      exact hnd
    exact List.pairwise_map.mp hnodup
  · intro p hp
    have hp' : p ∈ best.map Prod.snd :=
      (List.mergeSort_perm (best.map Prod.snd) _).subset hp
    obtain ⟨e, he, rfl⟩ := List.mem_map.mp hp'
    obtain ⟨hbase, hproc, hmax⟩ := hent e he
    exact ⟨hproc, fun q hq hbq => hmax q hq (by rw [hbq, hbase])⟩

/-! ### Document-id bounds through loading and searching (claim C10) -/

lemma alookup_mem {α β : Type} [DecidableEq α] :
    ∀ (m : List (α × β)) (k : α) (v : β), alookup m k = some v → (k, v) ∈ m := by
  intro m
  induction m with
  | nil => intro k v h; exact absurd h (by rw [alookup]; simp)
  | cons e t ih =>
    intro k v h
    obtain ⟨k₀, v₀⟩ := e
    rw [alookup] at h
    by_cases hk : k₀ = k
    · rw [if_pos hk] at h
      subst hk
      rw [Option.some_inj] at h
      subst h
      exact List.mem_cons.mpr (Or.inl rfl)
    · rw [if_neg hk] at h
      exact List.mem_cons.mpr (Or.inr (ih k v h))

lemma rebuildDescAux_bound (tok : Bytes → List Bytes) (N : Nat) :
    ∀ (ds : List Bytes) (i : Nat) (m : List (Bytes × List Nat)),
      (∀ e ∈ m, ∀ x ∈ e.2, x < N) → i + ds.length ≤ N →
      ∀ e ∈ rebuildDescAux tok i ds m, ∀ x ∈ e.2, x < N := by
  intro ds
  induction ds with
  | nil => intro i m hm _; exact hm
  | cons d dt ih =>
    intro i m hm hle
    rw [rebuildDescAux]
    apply ih
    · have := foldl_push_forall (fun x => x < N) (id : Bytes → Bytes)
        (fun _ => i) (fun _ => True) (tok d) m hm
        (fun _ => by show i < N; simp at hle; omega)
      simp only [if_pos trivial] at this
      exact this
    · simp at hle ⊢
      omega

lemma rebuildDescIndex_bound (tok : Bytes → List Bytes) (descs : List Bytes) :
    ∀ e ∈ rebuildDescIndex tok descs, ∀ x ∈ e.2, x < descs.length :=
  rebuildDescAux_bound tok descs.length descs 0 []
    (fun e he => absurd he (List.not_mem_nil e)) (by omega)

lemma buildCmdIdx_bound (N : Nat) :
    ∀ (cs : List Bytes) (i : Nat) (m : List (Bytes × List Nat)),
      (∀ e ∈ m, ∀ x ∈ e.2, x < N) → i + cs.length ≤ N →
      ∀ e ∈ buildCmdIdx i cs m, ∀ x ∈ e.2, x < N := by
  intro cs
  induction cs with
  | nil => intro i m hm _; exact hm
  | cons c ct ih =>
    intro i m hm hle
    rw [buildCmdIdx]
    apply ih
    · by_cases hc : c ≠ []
      · rw [if_pos hc]
        exact pushA_forall _ _ _ _ hm (by simp at hle; omega)
      · rw [if_neg hc]
        exact hm
    · simp at hle ⊢
      omega

lemma buildCmdIdx_bound_full (cs : List Bytes) :
    ∀ e ∈ buildCmdIdx 0 cs [], ∀ x ∈ e.2, x < cs.length :=
  buildCmdIdx_bound cs.length cs 0 []
    (fun e he => absurd he (List.not_mem_nil e)) (by omega)

lemma addA_forall {α : Type} [DecidableEq α] (P : α → Prop) :
    ∀ (m : List (α × ℚ)) (k : α) (v : ℚ),
      (∀ p ∈ m, P p.1) → P k → ∀ p ∈ addA m k v, P p.1 := by
  intro m
  induction m with
  | nil =>
    intro k v _ hk p hp
    simp only [addA, List.mem_singleton] at hp
    subst hp
    exact hk
  | cons e t ih =>
    intro k v hm hk p hp
    obtain ⟨k₀, x⟩ := e
    rw [addA] at hp
    by_cases h : k₀ = k
    · rw [if_pos h] at hp
      rcases List.mem_cons.mp hp with rfl | hp
      · exact hm (k₀, x) (by simp)
      · exact hm p (by simp [hp])
    · rw [if_neg h] at hp
      rcases List.mem_cons.mp hp with rfl | hp
      · exact hm (k₀, x) (by simp)
      · exact ih k v (fun q hq => hm q (by simp [hq])) hk p hp

lemma padA_forall {α : Type} [DecidableEq α] (P : α → Prop) :
    ∀ (m : List (α × ℚ)) (k : α),
      (∀ p ∈ m, P p.1) → P k → ∀ p ∈ padA m k, P p.1 := by
  intro m
  induction m with
  | nil =>
    intro k _ hk p hp
    simp only [padA, List.mem_singleton] at hp
    subst hp
    exact hk
  | cons e t ih =>
    intro k hm hk p hp
    obtain ⟨k₀, x⟩ := e
    rw [padA] at hp
    by_cases h : k₀ = k
    · rw [if_pos h] at hp
      rcases List.mem_cons.mp hp with rfl | hp
      · exact hm (k₀, x) (by simp)
      · exact hm p (by simp [hp])
    · rw [if_neg h] at hp
      rcases List.mem_cons.mp hp with rfl | hp
      · exact hm (k₀, x) (by simp)
      · exact ih k (fun q hq => hm q (by simp [hq])) hk p hp

lemma foldl_addA_forall {γ : Type} (P : Nat → Prop) (f : γ → Nat) (g : γ → ℚ) :
    ∀ (ps : List γ) (m : List (Nat × ℚ)),
      (∀ p ∈ m, P p.1) → (∀ u ∈ ps, P (f u)) →
      ∀ p ∈ ps.foldl (fun m2 u => addA m2 (f u) (g u)) m, P p.1 := by
  intro ps
  induction ps with
  | nil => intro m hm _; exact hm
  | cons u ut ih =>
    intro m hm hps
    rw [List.foldl_cons]
    exact ih (addA m (f u) (g u))
      (addA_forall P m (f u) (g u) hm (hps u (by simp)))
      (fun u' hu' => hps u' (by simp [hu']))

lemma foldl_dictfold_forall (P : Nat → Prop)
    (F : List (Nat × ℚ) → (String × List (Nat × ℚ)) → List (Nat × ℚ))
    (hF : ∀ m e, (∀ p ∈ m, P p.1) → (∀ p ∈ e.2, P p.1) → ∀ p ∈ F m e, P p.1) :
    ∀ (dict : List (String × List (Nat × ℚ))) (m : List (Nat × ℚ)),
      (∀ e ∈ dict, ∀ p ∈ e.2, P p.1) → (∀ p ∈ m, P p.1) →
      ∀ p ∈ dict.foldl F m, P p.1 := by
  intro dict
  induction dict with
  | nil => intro m _ hm; exact hm
  | cons e et ih =>
    intro m hd hm
    rw [List.foldl_cons]
    exact ih (F m e) (fun e' he' => hd e' (by simp [he']))
      (hF m e hm (hd e (by simp)))

lemma foldl_padA_forall (P : Nat → Prop) :
    ∀ (ds : List Nat) (m : List (Nat × ℚ)),
      (∀ p ∈ m, P p.1) → (∀ d ∈ ds, P d) →
      ∀ p ∈ ds.foldl (fun m d => padA m d) m, P p.1 := by
  intro ds
  induction ds with
  | nil => intro m hm _; exact hm
  | cons d dt ih =>
    intro m hm hds
    rw [List.foldl_cons]
    exact ih (padA m d) (padA_forall P m d hm (hds d (by simp)))
      (fun d' hd' => hds d' (by simp [hd']))

/-- `tokenStep` decomposed through the four `token_posts` stages. -/
lemma tokenStep_eq (idx : SIdx) (st : List (Nat × ℚ) × List (Nat × ℚ))
    (tok : String × ℚ) :
    tokenStep idx st tok =
      ((tp3Of idx tok.1 tok.2).foldl (fun m p => addA m p.1 p.2) st.1,
       if !(tp3Of idx tok.1 tok.2).isEmpty then
         (tp3Of idx tok.1 tok.2).foldl (fun m p => addA m p.1 tok.2) st.2
       else st.2) := rfl

lemma tp0Of_bound (idx : SIdx) (N : Nat) (token : String)
    (hdict : ∀ e ∈ idx.dict, ∀ p ∈ e.2, p.1 < N) :
    ∀ p ∈ tp0Of idx token, p.1 < N := by
  intro p hp
  unfold tp0Of at hp
  cases hlk : alookup idx.dict token with
  | none =>
    rw [hlk] at hp
    exact absurd hp (List.not_mem_nil p)
  | some ps =>
    rw [hlk] at hp
    exact foldl_addA_forall (fun x => x < N) Prod.fst Prod.snd ps []
      (fun q hq => absurd hq (List.not_mem_nil q))
      (fun u hu => hdict (token, ps) (alookup_mem idx.dict token ps hlk) u hu) p hp

lemma tp1Of_bound (idx : SIdx) (N : Nat) (token : String) (tokIdf : ℚ)
    (hdict : ∀ e ∈ idx.dict, ∀ p ∈ e.2, p.1 < N) :
    ∀ p ∈ tp1Of idx token tokIdf, p.1 < N := by
  intro p hp
  unfold tp1Of at hp
  split at hp
  · refine foldl_dictfold_forall (fun x => x < N) _ ?_ idx.dict
      (tp0Of idx token) hdict (tp0Of_bound idx N token hdict) p hp
    intro m e hm he q hq
    by_cases hc : e.1 ≠ token ∧ startsL token.toList e.1.toList
    · rw [if_pos hc] at hq
      exact foldl_addA_forall (fun x => x < N) Prod.fst
        (fun u => u.2 * (3 / 5 : ℚ) ^ (e.1.utf8ByteSize - token.utf8ByteSize + 1))
        e.2 m hm he q hq
    · rw [if_neg hc] at hq
      exact hm q hq
  · exact tp0Of_bound idx N token hdict p hp

lemma tp2Of_bound (idx : SIdx) (N : Nat) (token : String) (tokIdf : ℚ)
    (hdict : ∀ e ∈ idx.dict, ∀ p ∈ e.2, p.1 < N) :
    ∀ p ∈ tp2Of idx token tokIdf, p.1 < N := by
  intro p hp
  unfold tp2Of at hp
  split at hp
  · refine foldl_dictfold_forall (fun x => x < N) _ ?_ idx.dict
      (tp1Of idx token tokIdf) hdict (tp1Of_bound idx N token tokIdf hdict) p hp
    intro m e hm he q hq
    by_cases hc : absDiffN e.1.utf8ByteSize token.utf8ByteSize ≤ 1
        ∧ edit_distance e.1 token 1 ≤ 1
    · rw [if_pos hc] at hq
      exact foldl_addA_forall (fun x => x < N) Prod.fst
        (fun u => u.2 * (1 / 2)) e.2 m hm he q hq
    · rw [if_neg hc] at hq
      exact hm q hq
  · exact tp1Of_bound idx N token tokIdf hdict p hp

lemma tp3Of_bound (idx : SIdx) (N : Nat) (token : String) (tokIdf : ℚ)
    (hdict : ∀ e ∈ idx.dict, ∀ p ∈ e.2, p.1 < N)
    (hdesc : ∀ e ∈ idx.descIndex, ∀ x ∈ e.2, x < N) :
    ∀ p ∈ tp3Of idx token tokIdf, p.1 < N := by
  intro p hp
  unfold tp3Of at hp
  cases hlk : alookup idx.descIndex token with
  | none =>
    rw [hlk] at hp
    exact tp2Of_bound idx N token tokIdf hdict p hp
  | some ds =>
    rw [hlk] at hp
    exact foldl_padA_forall (fun x => x < N) ds (tp2Of idx token tokIdf)
      (tp2Of_bound idx N token tokIdf hdict)
      (fun d hd => hdesc (token, ds) (alookup_mem idx.descIndex token ds hlk) d hd) p hp

/-- All keys accumulated by one retrieval-loop iteration stay below the
document count, given that the dictionary postings and the description
index only hold in-range ids. -/
lemma tokenStep_bound (idx : SIdx) (N : Nat)
    (hdict : ∀ e ∈ idx.dict, ∀ p ∈ e.2, p.1 < N)
    (hdesc : ∀ e ∈ idx.descIndex, ∀ x ∈ e.2, x < N)
    (st : List (Nat × ℚ) × List (Nat × ℚ)) (tok : String × ℚ)
    (h1 : ∀ p ∈ st.1, p.1 < N) (h2 : ∀ p ∈ st.2, p.1 < N) :
    (∀ p ∈ (tokenStep idx st tok).1, p.1 < N)
    ∧ ∀ p ∈ (tokenStep idx st tok).2, p.1 < N := by
  rw [tokenStep_eq]
  constructor
  · exact fun p hp => foldl_addA_forall (fun x => x < N) Prod.fst Prod.snd
      (tp3Of idx tok.1 tok.2) st.1 h1
      (tp3Of_bound idx N tok.1 tok.2 hdict hdesc) p hp
  · show ∀ p ∈ (if !(tp3Of idx tok.1 tok.2).isEmpty then
        (tp3Of idx tok.1 tok.2).foldl (fun m p => addA m p.1 tok.2) st.2
      else st.2), p.1 < N
    split
    · exact fun p hp => foldl_addA_forall (fun x => x < N) Prod.fst
        (fun _ => tok.2) (tp3Of idx tok.1 tok.2) st.2 h2
        (tp3Of_bound idx N tok.1 tok.2 hdict hdesc) p hp
    · exact h2

lemma foldl_tokenStep_bound (idx : SIdx) (N : Nat)
    (hdict : ∀ e ∈ idx.dict, ∀ p ∈ e.2, p.1 < N)
    (hdesc : ∀ e ∈ idx.descIndex, ∀ x ∈ e.2, x < N) :
    ∀ (l : List (String × ℚ)) (st : List (Nat × ℚ) × List (Nat × ℚ)),
      (∀ p ∈ st.1, p.1 < N) → (∀ p ∈ st.2, p.1 < N) →
      (∀ p ∈ (l.foldl (tokenStep idx) st).1, p.1 < N)
      ∧ ∀ p ∈ (l.foldl (tokenStep idx) st).2, p.1 < N := by
  intro l
  induction l with
  | nil => intro st h1 h2; exact ⟨h1, h2⟩
  | cons u ut ih =>
    intro st h1 h2
    rw [List.foldl_cons]
    obtain ⟨g1, g2⟩ := tokenStep_bound idx N hdict hdesc st u h1 h2
    exact ih (tokenStep idx st u) g1 g2

/-- All document ids returned by `searchToks` are in range. -/
lemma searchToks_bound (lnQ : ℚ → ℚ) (idx : SIdx) (qtoks dtoks : List String)
    (hdict : ∀ e ∈ idx.dict, ∀ p ∈ e.2, p.1 < idx.docMap.length)
    (hdesc : ∀ e ∈ idx.descIndex, ∀ x ∈ e.2, x < idx.docMap.length) :
    ∀ r ∈ searchToks lnQ idx qtoks dtoks, r.docId < idx.docMap.length := by
  intro r hr
  rw [searchToks] at hr
  by_cases hq : qtoks = []
  · rw [if_pos hq] at hr
    exact absurd hr (List.not_mem_nil r)
  · rw [if_neg hq] at hr
    obtain ⟨p, hp, rfl⟩ := List.mem_map.mp hr
    show p.1 < idx.docMap.length
    have hded := (dedupStage_spec idx.docMap (rerankedStage lnQ idx qtoks dtoks)).2
      p hp
    have hrr := hded.1
    rw [rerankedStage] at hrr
    have hrr' := (List.mergeSort_perm _ _).subset hrr
    obtain ⟨q, hq', rfl⟩ := List.mem_map.mp hrr'
    show q.1 < idx.docMap.length
    have hcand : q ∈ sortByScoreDesc (candidatesStage lnQ idx qtoks dtoks) :=
      List.mem_of_mem_take hq'
    have hcand' : q ∈ candidatesStage lnQ idx qtoks dtoks :=
      (List.mergeSort_perm _ _).subset hcand
    rw [candidatesStage] at hcand'
    obtain ⟨a, ha, hfa⟩ := List.mem_filterMap.mp hcand'
    have haccb := (foldl_tokenStep_bound idx idx.docMap.length hdict hdesc
      (qtoks.zip ((tokenIdfList lnQ idx dtoks ((idx.docMap.length : ℚ))).map Prod.snd))
      ([], []) (fun p hp => absurd hp (List.not_mem_nil p))
      (fun p hp => absurd hp (List.not_mem_nil p))).1
    have ha' : a ∈ ((qtoks.zip ((tokenIdfList lnQ idx dtoks
        ((idx.docMap.length : ℚ))).map Prod.snd)).foldl (tokenStep idx) ([], [])).1 := by
      rw [accumulate] at ha
      exact ha
    have hq1 : q.1 = a.1 := by
      dsimp only at hfa
      split at hfa
      · exact absurd hfa (by simp)
      · rw [Option.some_inj] at hfa
        rw [← hfa]
    rw [hq1]
    exact haccb a ha'

/-! ## The claims -/

/-- Claim C1 (confirmed): for every index `I` (with the well-formedness
`save_index` assumes: equal-length document arrays, 32-bit sizes, distinct
dictionary keys) whose file fits a `u64`, `load_index` of `save_index I`
succeeds with an `MmapIndex` whose `doc_map`, `cmd_names` and `name_descs`
are structurally equal to `I`'s, whose `get_postings` returns exactly the
saved posting list of every dictionary word (and `notFound` for the rest),
and whose `desc_index` is the one rebuilt from `name_descs` under the same
tokenizer. -/
theorem save_load_roundtrip (I : Index32) (tok : Bytes → List Bytes)
    (h : wf32 I) (hlen : (save_index I).length < 18446744073709551616) :
    ∃ M : MmapIdx,
      load_index tok (save_index I) = Except.ok M
      ∧ M.doc_map = I.doc_map
      ∧ M.cmd_names = I.cmd_names
      ∧ M.name_descs = I.name_descs
      ∧ (∀ w ps, alookup I.inverted w = some ps → get_postings M w = PRes.found ps)
      ∧ (∀ w, alookup I.inverted w = none → get_postings M w = PRes.notFound)
      ∧ M.desc_index = rebuildDescIndex tok I.name_descs := by
  refine ⟨loadedOf I tok, roundtrip_core I tok h hlen, rfl, rfl, rfl, ?_, ?_, rfl⟩
  · intro w ps hw
    exact (loaded_get_postings I tok h w).1 ps hw
  · intro w hw
    exact (loaded_get_postings I tok h w).2 hw

/-- The round trip at the concrete two-document index `exI`. -/
theorem save_load_roundtrip_witness :
    ∃ M : MmapIdx,
      load_index exTok (save_index exI) = Except.ok M
      ∧ M.doc_map = exI.doc_map
      ∧ M.cmd_names = exI.cmd_names
      ∧ M.name_descs = exI.name_descs
      ∧ (∀ w ps, alookup exI.inverted w = some ps → get_postings M w = PRes.found ps)
      ∧ (∀ w, alookup exI.inverted w = none → get_postings M w = PRes.notFound)
      ∧ M.desc_index = rebuildDescIndex exTok exI.name_descs :=
  save_load_roundtrip exI exTok (by decide) (by decide)

lemma readU32B_some_len : ∀ (bs : Bytes) (v : Nat) (r : Bytes),
    readU32B bs = some (v, r) → r.length + 4 = bs.length := by
  intro bs v r h
  match bs with
  | [] => simp [readU32B] at h
  | [_] => simp [readU32B] at h
  | [_, _] => simp [readU32B] at h
  | [_, _, _] => simp [readU32B] at h
  | a :: b :: c :: d :: t =>
    rw [readU32B, Option.some_inj] at h
    have ht : t = r := congrArg Prod.snd h
    rw [← ht]
    simp

lemma readU64B_some_len : ∀ (bs : Bytes) (v : Nat) (r : Bytes),
    readU64B bs = some (v, r) → r.length + 8 = bs.length := by
  intro bs v r h
  match bs with
  | [] => simp [readU64B] at h
  | [_] => simp [readU64B] at h
  | [_, _] => simp [readU64B] at h
  | [_, _, _] => simp [readU64B] at h
  | [_, _, _, _] => simp [readU64B] at h
  | [_, _, _, _, _] => simp [readU64B] at h
  | [_, _, _, _, _, _] => simp [readU64B] at h
  | [_, _, _, _, _, _, _] => simp [readU64B] at h
  | a :: b :: c :: d :: e :: f :: g :: h8 :: t =>
    rw [readU64B, Option.some_inj] at h
    have ht : t = r := congrArg Prod.snd h
    rw [← ht]
    simp

lemma readStrB_some_len : ∀ (bs s r : Bytes),
    readStrB bs = some (s, r) → r.length + 4 ≤ bs.length := by
  intro bs s r h
  rw [readStrB] at h
  cases hu : readU32B bs with
  | none =>
    rw [hu] at h
    exact absurd h (by simp)
  | some p =>
    obtain ⟨len, rest⟩ := p
    simp only [hu] at h
    by_cases hle : len ≤ rest.length
    · rw [if_pos hle, Option.some_inj] at h
      have hr : rest.drop len = r := congrArg Prod.snd h
      have hlen := readU32B_some_len bs len rest hu
      rw [← hr, List.length_drop]
      omega
    · rw [if_neg hle] at h
      exact absurd h (by simp)

/-- A document-count field claiming more records than the remaining bytes
can hold (each record is at least 12 bytes of length prefixes) fails the
read. -/
lemma readDocsB_none_of_short : ∀ (n : Nat) (bs : Bytes),
    bs.length < 12 * n → readDocsB n bs = none := by
  intro n
  induction n with
  | zero => intro bs h; exact absurd h (by omega)
  | succ m ih =>
    intro bs h
    rw [readDocsB]
    cases h1 : readStrB bs with
    | none => simp only [h1]
    | some p1 =>
      obtain ⟨f, bs1⟩ := p1
      simp only [h1]
      cases h2 : readStrB bs1 with
      | none => simp only [h2]
      | some p2 =>
        obtain ⟨c, bs2⟩ := p2
        simp only [h2]
        cases h3 : readStrB bs2 with
        | none => simp only [h3]
        | some p3 =>
          obtain ⟨d, bs3⟩ := p3
          simp only [h3]
          have l1 := readStrB_some_len bs f bs1 h1
          have l2 := readStrB_some_len bs1 c bs2 h2
          have l3 := readStrB_some_len bs2 d bs3 h3
          have hlt : bs3.length < 12 * m := by omega
          simp only [ih bs3 hlt]

/-- A dictionary-length field claiming more entries than the remaining
bytes can hold (each entry is at least 16 bytes) fails the read. -/
lemma readDictB_none_of_short : ∀ (n : Nat) (bs : Bytes),
    bs.length < 16 * n → readDictB n bs = none := by
  intro n
  induction n with
  | zero => intro bs h; exact absurd h (by omega)
  | succ m ih =>
    intro bs h
    rw [readDictB]
    cases h1 : readStrB bs with
    | none => simp only [h1]
    | some p1 =>
      obtain ⟨w, bs1⟩ := p1
      simp only [h1]
      cases h2 : readU64B bs1 with
      | none => simp only [h2]
      | some p2 =>
        obtain ⟨off, bs2⟩ := p2
        simp only [h2]
        cases h3 : readU32B bs2 with
        | none => simp only [h3]
        | some p3 =>
          obtain ⟨cnt, bs3⟩ := p3
          simp only [h3]
          have l1 := readStrB_some_len bs w bs1 h1
          have l2 := readU64B_some_len bs1 off bs2 h2
          have l3 := readU32B_some_len bs2 cnt bs3 h3
          have hlt : bs3.length < 16 * m := by omega
          simp only [ih bs3 hlt]

/-- Claim C3 (corrected): a file smaller than 8 bytes is rejected at load
time with the distinct kind `tooSmall` (`InvalidData`); a string whose
length prefix exceeds the remaining bytes fails its read, as does a
document count or dictionary length claiming more records than the
remaining bytes can hold, and any such parse failure of the document or
the dictionary region makes `load_index` return the distinct kind
`truncated` (`UnexpectedEof`).  The rest of the original claim is refuted
by `load_accepts_bad_offsets`: posting offsets and counts read from the
dictionary are not validated by `load_index`, so corruption there
surfaces only later, as a panic in `get_postings`. -/
theorem load_index_corrupt_rejected (tok : Bytes → List Bytes) (bs : Bytes) :
    (bs.length < 8 → load_index tok bs = Except.error LoadErr.tooSmall)
    ∧ (∀ (cs rest : Bytes) (len : Nat), readU32B cs = some (len, rest) →
        rest.length < len → readStrB cs = none)
    ∧ (∀ (n : Nat) (cs : Bytes), cs.length < 12 * n → readDocsB n cs = none)
    ∧ (∀ (n : Nat) (cs : Bytes), cs.length < 16 * n → readDictB n cs = none)
    ∧ (∀ (dictOff : Nat) (rest : Bytes) (docCount : Nat) (r1 : Bytes),
        ¬ bs.length < 8 →
        readU64B (bs.drop (bs.length - 8)) = some (dictOff, rest) →
        ¬ bs.length < dictOff →
        readU32B (bs.take dictOff) = some (docCount, r1) →
        readDocsB docCount r1 = none →
        load_index tok bs = Except.error LoadErr.truncated)
    ∧ (∀ (dictOff : Nat) (rest : Bytes) (docCount : Nat) (r1 : Bytes)
        (docs : List Bytes × List Bytes × List Bytes) (rest2 : Bytes)
        (dictLen : Nat) (r2 : Bytes),
        ¬ bs.length < 8 →
        readU64B (bs.drop (bs.length - 8)) = some (dictOff, rest) →
        ¬ bs.length < dictOff →
        readU32B (bs.take dictOff) = some (docCount, r1) →
        readDocsB docCount r1 = some (docs, rest2) →
        ¬ bs.length - 8 < dictOff →
        readU32B ((bs.take (bs.length - 8)).drop dictOff) = some (dictLen, r2) →
        readDictB dictLen r2 = none →
        load_index tok bs = Except.error LoadErr.truncated)
    ∧ LoadErr.tooSmall ≠ LoadErr.truncated := by
  refine ⟨?_, ?_, readDocsB_none_of_short, readDictB_none_of_short, ?_, ?_, ?_⟩
  · intro h
    simp only [load_index, if_pos h]
  · intro cs rest len hu hlt
    rw [readStrB]
    simp only [hu]
    rw [if_neg (by omega)]
  · intro dictOff rest docCount r1 h8 hfoot hoff hcount hdocs
    rw [load_index]
    rw [if_neg h8]
    simp only [hfoot]
    rw [if_neg hoff]
    simp only [hcount, hdocs]
  · intro dictOff rest docCount r1 docs rest2 dictLen r2 h8 hfoot hoff hcount hdocs
      hoff2 hdict32 hdictnone
    rw [load_index]
    rw [if_neg h8]
    simp only [hfoot]
    rw [if_neg hoff]
    simp only [hcount, hdocs]
    rw [if_neg hoff2]
    simp only [hdict32, hdictnone]
  · intro h
    exact LoadErr.noConfusion h

/-- Claim C3, counterexample: `c3File` parses (its dictionary entry has
posting offset 9999 in a 33-byte file), `load_index` accepts it, and the
corruption surfaces as a panic inside `get_postings`. -/
theorem load_accepts_bad_offsets :
    load_index exTok c3File = Except.ok c3M
    ∧ get_postings c3M [97] = PRes.panic := by
  constructor
  · rfl
  · rfl

/-- Claim C8 (confirmed): `doc_type_multiplier` equals the multiplier as
the spec words it (`specDocTypeMultiplier`): `const`/`type`/`head` files
short-circuit at 0.1, otherwise the section multiplier from the first
character of the last `.`-suffix times the VIP factor. -/
theorem doc_type_multiplier_as_specified (fname : String) :
    doc_type_multiplier fname = specDocTypeMultiplier fname := rfl

/-- Claim C9 (corrected): `edit_distance a b k ≤ k` iff the true
Levenshtein distance is at most `k`; the result is either the true
distance or exactly `k + 1`, but when the true distance exceeds `k` the
result is not always `k + 1` (see the counterexample): the early-exit
paths return `k + 1`, while a completed computation returns the true
distance even when it exceeds `k`. -/
theorem edit_distance_bounded (a b : String) (k : Nat) :
    (edit_distance a b k ≤ k ↔ lev a.toList b.toList ≤ k)
    ∧ (edit_distance a b k = lev a.toList b.toList
        ∨ edit_distance a b k = k + 1) := by
  obtain h | ⟨h1, h2⟩ := edit_distance_spec a b k
  · exact ⟨by rw [h], Or.inl h⟩
  · refine ⟨?_, Or.inr h1⟩
    rw [h1]
    constructor
    · intro hk
      omega
    · intro hk
      omega

/-- Claim C9, counterexample: on `"ab"`, `"bcd"`, `k = 1` the true
distance is 3 > 1, yet the function returns 3, not `k + 1 = 2`. -/
theorem edit_distance_not_k_plus_one :
    edit_distance "ab" "bcd" 1 = 3
    ∧ lev "ab".toList "bcd".toList = 3
    ∧ 1 < lev "ab".toList "bcd".toList
    ∧ edit_distance "ab" "bcd" 1 ≠ 1 + 1 :=
  ⟨by decide, by decide, by decide, by decide⟩

/-- Claim C7 (confirmed): no two returned results share a filename base
(the part before the first `.`, lowercased), and every returned result is
a surviving reranked entry whose score is maximal among the reranked
entries of its base. -/
theorem search_results_deduped_by_base (lnQ : ℚ → ℚ) (idx : SIdx)
    (qtoks dtoks : List String) :
    (searchToks lnQ idx qtoks dtoks).Pairwise
      (fun r1 r2 => baseOf r1.fname ≠ baseOf r2.fname)
    ∧ ∀ r ∈ searchToks lnQ idx qtoks dtoks,
        (r.docId, r.score) ∈ rerankedStage lnQ idx qtoks dtoks
        ∧ ∀ q ∈ rerankedStage lnQ idx qtoks dtoks,
            baseOf (idx.docMap.getD q.1 "") = baseOf r.fname → q.2 ≤ r.score := by
  rw [searchToks]
  by_cases hq : qtoks = []
  · rw [if_pos hq]
    exact ⟨List.Pairwise.nil, fun r hr => absurd hr (List.not_mem_nil r)⟩
  · rw [if_neg hq]
    obtain ⟨hpw, hmem⟩ := dedupStage_spec idx.docMap (rerankedStage lnQ idx qtoks dtoks)
    constructor
    · exact List.pairwise_map.mpr hpw
    · intro r hr
      obtain ⟨p, hp, rfl⟩ := List.mem_map.mp hr
      obtain ⟨hin, hmax⟩ := hmem p hp
      constructor
      · show (p.1, p.2) ∈ rerankedStage lnQ idx qtoks dtoks
        rw [Prod.mk.eta]
        exact hin
      · intro q hquer hbq
        exact hmax q hquer hbq

/-- Claim C4 (corrected): `tokenize` is deterministic, and the stop-word
and length filters hold of every piece BEFORE stemming (the output is the
Porter stem of each surviving piece).  The original claim's guarantee on
the output tokens is refuted by `tokenize_stopword_output`: stemming runs
after the filter and can produce stop words and tokens of length ≤ 2. -/
theorem tokenize_filters_before_stemming (s : String) :
    tokenize s = tokenize s
    ∧ (∀ w ∈ tokenPieces s,
        isStopWord (String.mk w) = false
        ∧ (if dashLead w = true then 2 ≤ byteLen w else 2 < byteLen w))
    ∧ tokenize s = (tokenPieces s).map (fun w => String.mk (porterStemL w)) := by
  refine ⟨rfl, ?_, rfl⟩
  intro w hw
  have hkeep : keepPiece w = true := (List.mem_filter.mp hw).2
  rw [keepPiece, Bool.and_eq_true] at hkeep
  obtain ⟨h1, h2⟩ := hkeep
  refine ⟨by simpa using h1, ?_⟩
  by_cases hd : dashLead w = true
  · rw [if_pos hd]
    rw [if_pos hd] at h2
    exact of_decide_eq_true h2
  · rw [if_neg hd]
    rw [if_neg hd] at h2
    exact of_decide_eq_true h2

/-- Claim C4, counterexample: the piece `ins` passes the filter (length 3,
not a stop word), but its stem is the stop word `in`, of length 2, which
`tokenize` emits. -/
theorem tokenize_stopword_output :
    tokenize "ins" = ["in"]
    ∧ isStopWord "in" = true
    ∧ "in".length ≤ 2
    ∧ dashLead "in".toList = false :=
  ⟨by decide, by decide, by decide, by decide⟩

/-- Claim C5 (confirmed): in the index `build_index` produces, document
`d` has a posting for `t` exactly when the combined score
`(cmd + desc + syn + body) × doc_type_multiplier` computed for `(t, d)` is
strictly positive, and the posting's score is that value. -/
theorem built_posting_iff_positive_score (lnB : ℚ → ℚ) (stats : CrawlStatsM)
    (docs : List DocRec) (t : String) (d : Nat) (s : ℚ)
    (hd : d < docs.length) :
    (d, s) ∈ invList (build_index lnB stats docs) t
      ↔ s = docTermScore lnB (docs.length : ℚ) stats docs[d] t ∧ 0 < s := by
  rw [build_index_invList, mem_sortByScoreDesc,
    mem_invContrib lnB (docs.length : ℚ) stats t docs 0 d s]
  constructor
  · rintro ⟨j, r, hj, hdij, _, hs, hpos⟩
    have hjd : j = d := by omega
    subst hjd
    rw [List.getElem?_eq_getElem hd, Option.some_inj] at hj
    rw [← hj] at hs
    exact ⟨hs, hpos⟩
  · rintro ⟨hs, hpos⟩
    have hmem : t ∈ allTerms docs[d] := by
      by_contra hnot
      rw [score_zero_of_not_mem lnB (docs.length : ℚ) stats docs[d] t hnot] at hs
      rw [hs] at hpos
      exact lt_irrefl 0 hpos
    exact ⟨d, docs[d], List.getElem?_eq_getElem hd, by omega, hmem, hs, hpos⟩

/-- The posting criterion at one concrete document: `ls` scores
`600` for its own command name, and the posting is present. -/
theorem built_posting_iff_positive_score_witness :
    (0, (600 : ℚ)) ∈ invList (build_index lnOne statsE [c5Doc]) "ls"
      ↔ (600 : ℚ) = docTermScore lnOne (([c5Doc].length : ℚ)) statsE [c5Doc][0] "ls"
          ∧ (0 : ℚ) < 600 :=
  built_posting_iff_positive_score lnOne statsE [c5Doc] "ls" 0 600 (by decide)

/-- Claim C2 (code bug): the retrieval loop pairs
`query_tokens_vec.iter()` with `token_idfs.values()` via `zip`, and
`token_idfs` holds one entry per distinct token, so a duplicated query
token is processed once, not twice: on the query tokens
`[grep, grep]` the loop accumulates score 2 for document 0 (one pass)
where processing every token (the spec's loop) accumulates 4. -/
theorem zip_drops_duplicate_tokens :
    accumulate lnOne c2Idx ["grep", "grep"] ["grep"]
        ≠ specAccumulate lnOne c2Idx ["grep", "grep"]
    ∧ accumulate lnOne c2Idx ["grep", "grep"] ["grep"]
        = specAccumulate lnOne c2Idx ["grep"]
    ∧ accumulate lnOne c2Idx ["grep", "grep"] ["grep"] = ([(0, 2)], [(0, 1)])
    ∧ specAccumulate lnOne c2Idx ["grep", "grep"] = ([(0, 4)], [(0, 2)]) :=
  ⟨by with_unfolding_all decide, by with_unfolding_all decide,
   by with_unfolding_all decide, by with_unfolding_all decide⟩

/-- Claim C6 (code bug): the same `zip` pairs each token with an
arbitrary-order `HashMap` value, so whether prefix expansion runs for `t`
depends on the `token_idfs` iteration order, not on `idf(t)` itself: with
`abcd` (own idf 0.01 ≤ 1.0) and `efgh` (idf 2 > 1.0) in the query, the two
iteration orders yield different accumulated scores — in one of them
`abcd` is expanded to `abcdz` although its own idf fails the gate. -/
theorem zip_pairs_wrong_idf :
    accumulate c6LnQ c6Idx ["abcd", "efgh"] ["abcd", "efgh"]
      ≠ accumulate c6LnQ c6Idx ["abcd", "efgh"] ["efgh", "abcd"]
    ∧ query_idf c6LnQ c6Idx "abcd" 3 ≤ PFX_MIN_IDF
    ∧ PFX_MIN_IDF < query_idf c6LnQ c6Idx "efgh" 3 :=
  ⟨by with_unfolding_all decide, by with_unfolding_all decide,
   by with_unfolding_all decide⟩

/-- Claim C10 (confirmed): the built index has equal-length document
arrays (one entry per crawled record) and every stored document id —
inverted postings, `cmd_name_index`, `desc_index` — is below that length;
an `MmapIndex` loaded from a saved well-formed index keeps the array
lengths and in-range ids (postings fetched by `get_postings`, the rebuilt
`desc_index` and `cmd_name_index`); and `search`'s results only carry
in-range ids, so its `name_descs`/`doc_map` lookups stay in bounds. -/
theorem doc_ids_in_bounds :
    (∀ (lnB : ℚ → ℚ) (stats : CrawlStatsM) (docs : List DocRec),
      (build_index lnB stats docs).docMap.length = docs.length
      ∧ (build_index lnB stats docs).cmdNames.length = docs.length
      ∧ (build_index lnB stats docs).nameDescs.length = docs.length
      ∧ buildBound (build_index lnB stats docs) docs.length)
    ∧ (∀ (I : Index32) (tok : Bytes → List Bytes) (M : MmapIdx),
        wf32 I → (save_index I).length < 18446744073709551616 →
        (∀ e ∈ I.inverted, ∀ p ∈ e.2, p.1 < I.doc_map.length) →
        load_index tok (save_index I) = Except.ok M →
          M.doc_map.length = I.doc_map.length
          ∧ M.cmd_names.length = I.doc_map.length
          ∧ M.name_descs.length = I.doc_map.length
          ∧ (∀ w ps, get_postings M w = PRes.found ps →
              ∀ p ∈ ps, p.1 < M.doc_map.length)
          ∧ (∀ e ∈ M.desc_index, ∀ x ∈ e.2, x < M.doc_map.length)
          ∧ (∀ e ∈ M.cmd_name_index, ∀ x ∈ e.2, x < M.doc_map.length))
    ∧ (∀ (lnQ : ℚ → ℚ) (idx : SIdx) (qtoks dtoks : List String),
        (∀ e ∈ idx.dict, ∀ p ∈ e.2, p.1 < idx.docMap.length) →
        (∀ e ∈ idx.descIndex, ∀ x ∈ e.2, x < idx.docMap.length) →
        ∀ r ∈ searchToks lnQ idx qtoks dtoks, r.docId < idx.docMap.length) := by
  refine ⟨?_, ?_, ?_⟩
  · intro lnB stats docs
    obtain ⟨h1, h2, h3⟩ := build_index_lengths lnB stats docs
    exact ⟨h1, h2, h3, build_index_bound lnB stats docs⟩
  · intro I tok M hwf hlen hbound hload
    have hM : M = loadedOf I tok := by
      rw [roundtrip_core I tok hwf hlen] at hload
      exact (Except.ok.inj hload).symm
    have hc := hwf.1
    have hd := hwf.2.1
    subst hM
    refine ⟨rfl, hc, hd, ?_, ?_, ?_⟩
    · intro w ps hfound p hp
      cases hlk : alookup I.inverted w with
      | none =>
        rw [(loaded_get_postings I tok hwf w).2 hlk] at hfound
        exact absurd hfound (by simp)
      | some ps' =>
        rw [(loaded_get_postings I tok hwf w).1 ps' hlk] at hfound
        have : ps' = ps := by
          injection hfound
        subst this
        exact hbound (w, ps') (alookup_mem I.inverted w ps' hlk) p hp
    · show ∀ e ∈ rebuildDescIndex tok I.name_descs, ∀ x ∈ e.2, x < I.doc_map.length
      rw [← hd]
      exact rebuildDescIndex_bound tok I.name_descs
    · show ∀ e ∈ buildCmdIdx 0 I.cmd_names [], ∀ x ∈ e.2, x < I.doc_map.length
      rw [← hc]
      exact buildCmdIdx_bound_full I.cmd_names
  · intro lnQ idx qtoks dtoks hdict hdesc
    exact searchToks_bound lnQ idx qtoks dtoks hdict hdesc

end Manalogue
